import Mathlib

/-!
Verification of the Deck-Genie content pipeline (`src/ppt_generator.py`).

Strings are modelled as `List Char` with ASCII semantics for the character
classification primitives (`str.isalnum`, `str.lower`, `str.isspace`): the
repository's own vocabulary (bullet texts, stop words, completion phrases) is
ASCII, so `Char.isAlphanum` / `Char.toLower` are faithful on every input the
code manipulates.  Fallible Python code (an expression that can raise) is
embedded as `Option`; session state threaded through the image-cache layer is
embedded as explicit state passing.
-/

namespace DeckGenie

/-- Python `str.isspace` membership for one character (ASCII whitespace). -/
def pyIsSpace (c : Char) : Bool :=
  c = ' ' || c = '\t' || c = '\n' || c = '\x0d' || c = '\x0b' || c = '\x0c'

/-- Characters stripped by `rstrip('. ')` in `ensure_complete_sentences`. -/
def isDotSpace (c : Char) : Bool := c = '.' || c = ' '

/-- Characters stripped by `rstrip('.,;:')` in `clean_and_deduplicate_text`. -/
def isTrailPunct (c : Char) : Bool := c = '.' || c = ',' || c = ';' || c = ':'

/-- The bullet glyphs removed by `clean_and_deduplicate_text`
(`'•'`, `'*'`, `'·'`, `'-'`). -/
def isGlyph (c : Char) : Bool := c = '•' || c = '*' || c = '·' || c = '-'

/-- Python `s.rstrip(set)`: drop the longest trailing run of characters
satisfying `p`. -/
def pyRstrip (l : List Char) (p : Char → Bool) : List Char :=
  (l.reverse.dropWhile p).reverse

/-- Python `s.lstrip(set)`. -/
def pyLstrip (l : List Char) (p : Char → Bool) : List Char :=
  l.dropWhile p

/-- Python `s.strip()` (whitespace both ends). -/
def pyStrip (l : List Char) : List Char :=
  pyRstrip (pyLstrip l pyIsSpace) pyIsSpace

/-- Accumulator worker for `pySplit`; `acc` holds the current in-progress
word, reversed. -/
def pySplitAux : List Char → List Char → List (List Char)
  | [], acc => if acc = [] then [] else [acc.reverse]
  | c :: t, acc =>
      if pyIsSpace c then
        if acc = [] then pySplitAux t [] else acc.reverse :: pySplitAux t []
      else pySplitAux t (c :: acc)

/-- Python `s.split()` with no argument: split on whitespace runs, dropping
empty fields. -/
def pySplit (l : List Char) : List (List Char) := pySplitAux l []

/-- Python `" ".join(words)`. -/
def joinWords : List (List Char) → List Char
  | [] => []
  | [w] => w
  | w :: ws => w ++ ' ' :: joinWords ws

/-- `len(text.split())`, the word count used by the truncation limits. -/
def wordCount (l : List Char) : Nat := (pySplit l).length

/-- The non-space character class used while scanning a word. -/
def notWS (c : Char) : Bool := !pyIsSpace c

/-! ### Text Normalizer (`clean_and_deduplicate_text`, `get_comparison_key`) -/

/-- `text.replace('•','').replace('*','').replace('·','').replace('-','')`. -/
def removeGlyphs (l : List Char) : List Char := l.filter (fun c => !isGlyph c)

/-- `' '.join(text.split())`. -/
def collapseWS (l : List Char) : List Char := joinWords (pySplit l)

/-- `clean_and_deduplicate_text` from `ppt_generator.py`. -/
def clean_and_deduplicate_text (text : List Char) : List Char :=
  if text = [] then []
  else pyStrip (pyRstrip (collapseWS (removeGlyphs text)) isTrailPunct)

/-- The stop-word set of `get_comparison_key`. -/
def stopWords : List (List Char) :=
  [ "the", "a", "an", "and", "or", "but", "in", "on", "at", "to", "for",
    "with", "by" ].map String.toList

/-- The character filter of `get_comparison_key`:
`c.isalnum() or c.isspace()`. -/
def keepKeyChar (c : Char) : Bool := c.isAlphanum || pyIsSpace c

/-- `''.join(c.lower() for c in text if c.isalnum() or c.isspace())`, the
character pass of `get_comparison_key`. -/
def fKey (x : List Char) : List Char :=
  (x.filter keepKeyChar).map Char.toLower

/-- `get_comparison_key` from `ppt_generator.py`. -/
def get_comparison_key (text : List Char) : List Char :=
  if text = [] then []
  else joinWords ((pySplit (fKey text)).filter (fun w => decide (w ∉ stopWords)))

/-- The canonical dedup key: the comparison key of the cleaned text, exactly
as computed inside `deduplicate_content` / `deduplicate_bullets`. -/
def dedupKey (text : List Char) : List Char :=
  get_comparison_key (clean_and_deduplicate_text text)

/-- "Two strings that differ only in bullet glyphs, case, stop-words, or
trailing punctuation" (§4.1): the equivalence generated by inserting or
deleting a bullet glyph, changing one character's case, inserting or deleting
a whole space-delimited stop-word, and adding or removing trailing
punctuation. -/
inductive DiffOnly : List Char → List Char → Prop where
  | refl (s : List Char) : DiffOnly s s
  | symm {s t : List Char} : DiffOnly s t → DiffOnly t s
  | trans {s t u : List Char} : DiffOnly s t → DiffOnly t u → DiffOnly s u
  | glyph (a b : List Char) (g : Char) (hg : isGlyph g = true) :
      DiffOnly (a ++ g :: b) (a ++ b)
  | caseChange (a b : List Char) (c d : Char) (h : c.toLower = d.toLower) :
      DiffOnly (a ++ c :: b) (a ++ d :: b)
  | stopWord (a b w : List Char) (hw : w ∈ stopWords) :
      DiffOnly (a ++ ' ' :: (w ++ ' ' :: b)) (a ++ ' ' :: b)
  | trailPunct (s : List Char) (p : Char) (hp : isTrailPunct p = true) :
      DiffOnly (s ++ [p]) s

/-! ### Deduplicator (`deduplicate_content`, `deduplicate_bullets`) -/

/-- One element of a raw content sequence: a plain string or a record.  The
record carries the three recognized text-bearing fields (each `none` when the
key is absent) and `reprStr`, its Python `str(item)` rendering used as the
last-resort fallback. -/
inductive ContentItem where
  | str (s : List Char)
  | dict (point feature text : Option (List Char)) (reprStr : List Char)
  deriving DecidableEq

/-- Python truthiness fallback `a or b` for an optional string field read
with `.get(k, "")`. -/
def orElseText (v : Option (List Char)) (rest : List Char) : List Char :=
  match v with
  | none => rest
  | some [] => rest
  | some s => s

/-- `item.get("point","") or item.get("feature","") or item.get("text","")
or str(item)` in `deduplicate_content`. -/
def extractContentText : ContentItem → List Char
  | .str s => s
  | .dict p f t r => orElseText p (orElseText f (orElseText t r))

/-- `bullet.get('point','') or bullet.get('text','') or str(bullet)` in
`deduplicate_bullets` (note: no `feature` probe there). -/
def extractBulletText : ContentItem → List Char
  | .str s => s
  | .dict p _ t r => orElseText p (orElseText t r)

/-- Python `str.replace(pat, rep)`, fuel-based over the string length. -/
def pyReplaceAux (pat rep : List Char) : Nat → List Char → List Char
  | 0, l => l
  | _ + 1, [] => []
  | n + 1, c :: t =>
      if pat ≠ [] ∧ pat.isPrefixOf (c :: t) then
        rep ++ pyReplaceAux pat rep n (List.drop (pat.length - 1) t)
      else c :: pyReplaceAux pat rep n t

def pyReplace (l pat rep : List Char) : List Char :=
  pyReplaceAux pat rep l.length l

def productPlaceholder : List Char := String.toList "[Product Name]"

/-- Python truthiness of the optional `product_name` argument. -/
def prodTruthy : Option (List Char) → Bool
  | none => false
  | some [] => false
  | some (_ :: _) => true

/-- `v.replace("[Product Name]", product_name) if product_name else v`. -/
def substProduct (pn : Option (List Char)) (v : List Char) : List Char :=
  if prodTruthy pn then pyReplace v productPlaceholder (pn.getD []) else v

/-- Ordered-dict lookup (`key in seen_points` / `seen_points[key]`). -/
def lookupSeen (seen : List (List Char × List Char)) (k : List Char) :
    Option (List Char) :=
  match seen with
  | [] => none
  | (k2, v) :: rest => if k2 = k then some v else lookupSeen rest k

/-- Ordered-dict write `seen_points[key] = value`: updates in place,
preserving first-insertion order (Python 3.7 dict semantics). -/
def updateSeen (seen : List (List Char × List Char)) (k v : List Char) :
    List (List Char × List Char) :=
  match seen with
  | [] => [(k, v)]
  | (k2, v2) :: rest =>
      if k2 = k then (k2, v) :: rest else (k2, v2) :: updateSeen rest k v

/-- The per-item product substitution applied to a surviving item in
`deduplicate_content`: dict items keep their structure with every string
field substituted; string items are replaced by the substituted cleaned
text. -/
def contentOutputItem (pn : Option (List Char)) (item : ContentItem)
    (cleanText : List Char) : ContentItem :=
  match item with
  | .str _ => .str (substProduct pn cleanText)
  | .dict p f t r =>
      .dict (p.map (substProduct pn)) (f.map (substProduct pn))
        (t.map (substProduct pn)) r

/-- The loop of `deduplicate_content`, with the `seen_points` dict made
explicit. -/
def dedupContentAux (pn : Option (List Char)) :
    List ContentItem → List (List Char × List Char) → List ContentItem
  | [], _ => []
  | item :: rest, seen =>
      let cleanText := clean_and_deduplicate_text (extractContentText item)
      if cleanText = [] then dedupContentAux pn rest seen
      else
        let key := get_comparison_key cleanText
        if key = [] then dedupContentAux pn rest seen
        else
          let keep := match lookupSeen seen key with
            | none => true
            | some v => decide (v.length < cleanText.length)
          if keep then
            contentOutputItem pn item cleanText ::
              dedupContentAux pn rest (updateSeen seen key cleanText)
          else dedupContentAux pn rest seen

/-- `deduplicate_content` from `ppt_generator.py`. -/
def deduplicate_content (contentList : List ContentItem)
    (productName : Option (List Char) := none) : List ContentItem :=
  dedupContentAux productName contentList []

/-- The loop of `deduplicate_bullets`: builds the ordered `unique_bullets`
dict. -/
def dedupBulletsAux :
    List ContentItem → List (List Char × List Char) →
      List (List Char × List Char)
  | [], m => m
  | b :: rest, m =>
      let cleanText := clean_and_deduplicate_text (extractBulletText b)
      let key := get_comparison_key cleanText
      if key = [] then dedupBulletsAux rest m
      else
        let keep := match lookupSeen m key with
          | none => true
          | some v => decide (v.length < cleanText.length)
        if keep then dedupBulletsAux rest (updateSeen m key cleanText)
        else dedupBulletsAux rest m

/-- `deduplicate_bullets` from `ppt_generator.py`
(`list(unique_bullets.values())`). -/
def deduplicate_bullets (bullets : List ContentItem) : List (List Char) :=
  (dedupBulletsAux bullets []).map (fun p => p.2)

/-! ### Sentence Completion Repair (`ensure_complete_sentences`) -/

/-- The fixed prefix → completion-phrase table (`endings` dict, in insertion
order). -/
def endingsTable : List (List Char × List Char) :=
  [ ("manua", "manual processes."),
    ("vulnerab", "vulnerability management."),
    ("efficien", "efficiency."),
    ("secur", "security measures."),
    ("complian", "compliance requirements."),
    ("detect", "detection capabilities."),
    ("automa", "automation capabilities."),
    ("respon", "response procedures."),
    ("sophisti", "sophisticated approach."),
    ("integra", "integration capabilities."),
    ("platfor", "platform features."),
    ("soluti", "solution benefits."),
    ("analy", "analysis capabilities."),
    ("monitor", "monitoring system."),
    ("protect", "protection measures.")
  ].map (fun p => (p.1.toList, p.2.toList))

/-- `complete.split()[0].lower()` for one table entry. -/
def firstTokenLower (comp : List Char) : List Char :=
  ((pySplit comp).headD []).map Char.toLower

/-- The `for partial, complete in endings.items()` loop: the first entry whose
prefix matches the lowercased last word and whose first completion token
differs from it (the loop breaks on the first hit). -/
def findCompletion (lw : List Char) : Option (List Char) :=
  go endingsTable
where
  go : List (List Char × List Char) → Option (List Char)
    | [] => none
    | (pre, comp) :: rest =>
        if pre.isPrefixOf lw ∧ lw ≠ firstTokenLower comp then some comp
        else go rest

/-- The incomplete-word check-and-repair tail of `ensure_complete_sentences`
(from `last_word = text.split()[-1].lower()` on): fires the table entry or
returns the text unchanged; `none` models the `IndexError` of
`text.split()[-1]` on an all-whitespace string. -/
def applyCompletion (t2 : List Char) : Option (List Char) :=
  match (pySplit t2).getLast? with
  | none => none
  | some lastw =>
      match findCompletion (lastw.map Char.toLower) with
      | some comp => some (joinWords (pySplit t2).dropLast ++ ' ' :: comp)
      | none => some t2

/-- `ensure_complete_sentences` from `ppt_generator.py`.  Returns `none`
where the Python code raises `IndexError` (`text[-1]` on a string whose
`rstrip('. ')` is empty, or `text.split()[-1]` on an all-whitespace
string). -/
def ensure_complete_sentences (text : List Char) : Option (List Char) :=
  if text = [] then some text
  else
    match (pyRstrip text isDotSpace).getLast? with
    | none => none
    | some lastc =>
        applyCompletion
          (if lastc.isAlphanum then pyRstrip text isDotSpace ++ ['.']
           else pyRstrip text isDotSpace)

/-! ### Truncator (`truncate_text_for_slide`) -/

/-- `max_chars or 100` / `max_words or 20` (Python `or` maps both `None` and
`0` to the default). -/
def effLimit (dflt : Nat) : Option Nat → Nat
  | none => dflt
  | some 0 => dflt
  | some (n + 1) => n + 1

/-- `text.rfind(c, 0, n)` for a character class: the largest index `i < n`
with `p text[i]`, or `none`.  (`rfind` returns `-1` when absent; the caller
compares with `> 0`, so `none` and `some 0` take the fallback branch.) -/
def lastIdxBefore (t : List Char) (n : Nat) (p : Char → Bool) : Option Nat :=
  ((List.range (min n t.length)).filter (fun i => p (t.getD i ' '))).getLast?

/-- The `last_space` fallback of the character-truncation branch. -/
def spaceCut (t : List Char) (maxC : Nat) : List Char :=
  match lastIdxBefore t maxC (fun c => c = ' ') with
  | some i => if 0 < i then pyStrip (t.take i) else pyStrip (t.take maxC)
  | none => pyStrip (t.take maxC)

/-- The character-limit truncation step (`last_sentence_end` search then
space/hard fallback). -/
def charCut (t : List Char) (maxC : Nat) : List Char :=
  match lastIdxBefore t maxC (fun c => c = '.' || c = '!' || c = '?') with
  | some i => if 0 < i then pyStrip (t.take (i + 1)) else spaceCut t maxC
  | none => spaceCut t maxC

/-- The text `truncate_text_for_slide` builds before its final
`ensure_complete_sentences` call. -/
def truncCore (text : List Char) (mc mw : Option Nat) : List Char :=
  if text = [] then []
  else
    let maxC := effLimit 100 mc
    let maxW := effLimit 20 mw
    let t := pyStrip text
    let ws := pySplit t
    if ws.length ≤ maxW ∧ t.length ≤ maxC then t
    else
      let t1 := if maxW < ws.length then joinWords (ws.take maxW) else t
      if maxC < t1.length then charCut t1 maxC else t1

/-- `truncate_text_for_slide` from `ppt_generator.py`.  `none` models the
`IndexError` escaping from `ensure_complete_sentences`. -/
def truncate_text_for_slide (text : List Char)
    (mc mw : Option Nat := none) : Option (List Char) :=
  if text = [] then some []
  else
    let maxC := effLimit 100 mc
    let maxW := effLimit 20 mw
    let t := pyStrip text
    let ws := pySplit t
    if ws.length ≤ maxW ∧ t.length ≤ maxC then ensure_complete_sentences t
    else
      let t1 := if maxW < ws.length then joinWords (ws.take maxW) else t
      ensure_complete_sentences (if maxC < t1.length then charCut t1 maxC else t1)

/-! ### Slide Order Planner (default-order branch of `create_presentation`) -/

/-- A roster entry: a dict with `name`/`title` (absent keys read as `""` via
`.get`) or a bare string. -/
inductive TeamMember where
  | entry (name title : String)
  | nameOnly (s : String)
  deriving DecidableEq

/-- The `generic_names` denylist of `create_team_slide_wrapper`. -/
def genericNames : List String :=
  [ "John Doe", "Jane Smith", "Team Member", "CEO", "CTO", "Manager",
    "Chief Executive Officer", "Chief Technology Officer",
    "Chief Operating Officer", "COO", "CFO", "CMO", "Director", "VP",
    "Vice President" ]

/-- The `has_real_names` scan of `create_team_slide_wrapper`. -/
def hasRealNames (members : List TeamMember) : Bool :=
  members.any fun m =>
    match m with
    | .entry name title =>
        name ≠ "" && decide (name ∉ genericNames) && decide (title ∉ genericNames)
    | .nameOnly s => decide (s ∉ genericNames)

/-- The persona-specific `core_slides + supporting_slides + optional_slides`
candidate sequence of `create_presentation` (the two `elif` branches override
the defaults). -/
def planCandidates (persona : String) : List String :=
  if persona = "technical" then
    ["title_slide", "problem_slide", "solution_slide", "features_slide",
      "advantage_slide", "roadmap_slide", "audience_slide", "market_slide"]
  else if persona = "executive" then
    ["title_slide", "problem_slide", "market_slide", "solution_slide",
      "advantage_slide", "features_slide", "audience_slide", "roadmap_slide"]
  else
    ["title_slide", "problem_slide", "solution_slide", "features_slide",
      "advantage_slide", "audience_slide", "market_slide", "roadmap_slide"]

/-- The `for slide_type in core + supporting + optional: if slide_type in
content` filter. -/
def planBase (keys : List String) (persona : String) : List String :=
  (planCandidates persona).filter (fun t => decide (t ∈ keys))

/-- `if team_config['include_team_slide'] and team_config['team_members']:
slide_order.append('team_slide')`. -/
def planWithTeam (includeTeam : Bool) (cfgMembers : List TeamMember)
    (order : List String) : List String :=
  if includeTeam && !cfgMembers.isEmpty then order ++ ["team_slide"] else order

/-- `if 'cta_slide' in content and 'cta_slide' not in slide_order:
slide_order.append('cta_slide')`. -/
def planAppendCta (keys : List String) (order : List String) : List String :=
  if decide ("cta_slide" ∈ keys) && !order.contains "cta_slide" then
    order ++ ["cta_slide"]
  else order

/-- The default slide-order computation of `create_presentation` (the branch
taken when no `custom_slide_order` is supplied): persona-specific candidate
groups filtered by membership in the content bundle, then the team-slide
append (gated only on the team config), then the CTA append. -/
def planSlideOrder (keys : List String) (persona : String)
    (includeTeam : Bool) (cfgMembers : List TeamMember) : List String :=
  planAppendCta keys (planWithTeam includeTeam cfgMembers (planBase keys persona))

/-- The `create_team_slide_wrapper` gate: slide produced iff the inclusion
flag is set, the slide's own `team_members` roster is non-empty, and the
roster passes the generic-name scan.

Modelled from the spec: `ppt_generator_additions.create_team_slide` (the
module is not under `src/`) is modelled as unconditionally adding a team
slide when invoked, per §4.8 (builders compose their slide when called). -/
def teamSlideWrapperCreates (includeTeam : Bool)
    (contentRoster : List TeamMember) : Bool :=
  includeTeam && !contentRoster.isEmpty && hasRealNames contentRoster

/-- Whether one `create_presentation` build (default slide order) adds a team
slide to the produced deck: `team_slide` must be planned, present as a key of
the content bundle (the build loop skips order entries absent from the
bundle), and pass the wrapper gate. -/
def teamSlideCreated (keys : List String) (persona : String)
    (includeTeam : Bool) (cfgMembers contentRoster : List TeamMember) : Bool :=
  ("team_slide" ∈
      planSlideOrder keys persona includeTeam cfgMembers : Bool)
    && decide ("team_slide" ∈ keys)
    && teamSlideWrapperCreates includeTeam contentRoster

/-! ### Image Cache / Dedup Layer (`fetch_image_with_cache`,
`fetch_unique_image`) -/

/-- The state threaded through one presentation build: the per-deck
`used_images` hash set, the session `original_images_cache` (absent when the
session key does not exist), and the stream of upcoming
`fetch_image_for_slide` results (the external image-search collaborator,
`none` = no image obtained). -/
structure ImgState where
  used : List Nat
  cache : Option (List (String × Nat))
  feed : List (Option Nat)
  deriving DecidableEq

/-- `st.session_state.original_images_cache[f'{slide_type}_slide']` lookup. -/
def cacheLookup (cache : Option (List (String × Nat))) (slide : String) :
    Option Nat :=
  match cache with
  | none => none
  | some entries =>
      match entries.find? (fun p => p.1 = slide) with
      | none => none
      | some p => some p.2

/-- Write-through of a freshly fetched image into the session cache (a no-op
when the session cache dict does not exist, as in the code). -/
def cacheStore (cache : Option (List (String × Nat))) (slide : String)
    (img : Nat) : Option (List (String × Nat)) :=
  match cache with
  | none => none
  | some entries =>
      if entries.any (fun p => p.1 = slide) then
        some (entries.map fun p => if p.1 = slide then (p.1, img) else p)
      else some (entries ++ [(slide, img)])

/-- The `for _ in range(3)` retry loop of `fetch_unique_image`; each
iteration consumes one `fetch_image_for_slide` result from the feed (an
exhausted feed models a collaborator that keeps returning "no image"). -/
def fetchUniqueLoop (h : Nat → Nat) (slide : String) :
    Nat → ImgState → Option Nat × ImgState
  | 0, s => (none, s)
  | n + 1, s =>
      match s.feed with
      | [] => (none, s)
      | r :: rest =>
          let s1 : ImgState := { s with feed := rest }
          match r with
          | none => (none, s1)
          | some img =>
              if h img ∈ s1.used then fetchUniqueLoop h slide n s1
              else
                (some img,
                  { s1 with
                    used := h img :: s1.used
                    cache := cacheStore s1.cache slide img })

/-- `fetch_unique_image` from `ppt_generator.py`; `h` is the content-hash
function (`hashlib.md5(...).hexdigest()`). -/
def fetch_unique_image (h : Nat → Nat) (slide : String) (isNew : Bool)
    (s : ImgState) : Option Nat × ImgState :=
  if !isNew then (none, s) else fetchUniqueLoop h slide 3 s

/-- `fetch_image_with_cache` from `ppt_generator.py`. -/
def fetch_image_with_cache (h : Nat → Nat) (slide : String) (isNew : Bool)
    (s : ImgState) : Option Nat × ImgState :=
  match cacheLookup s.cache slide with
  | some cached =>
      if h cached ∉ s.used then
        (some cached, { s with used := h cached :: s.used })
      else if !isNew then (some cached, s)
      else fetch_unique_image h slide isNew s
  | none =>
      if isNew then fetch_unique_image h slide isNew s else (none, s)

/-- One new-presentation build, seen by the image layer: the slide builders
run in sequence and each calls `fetch_image_with_cache` with
`is_new_presentation = True`, threading the one shared `used_images` set (and
session cache and fetch feed) through every call.  Returns the per-call
results in order together with the final state. -/
def runFetchCalls (h : Nat → Nat) : List String → ImgState →
    List (Option Nat) × ImgState
  | [], s => ([], s)
  | sl :: rest, s =>
      ((fetch_image_with_cache h sl true s).1 ::
        (runFetchCalls h rest (fetch_image_with_cache h sl true s).2).1,
       (runFetchCalls h rest (fetch_image_with_cache h sl true s).2).2)

/-! ### Advantage-slide builder effect on the content bundle
(`create_advantage_slide`) -/

/-- The fields of an advantage-slide content record the builder touches.
`none` = key absent. -/
structure AdvContent where
  title : String
  differentiators : Option (List String)
  bullets : Option (List String)
  advantages : Option (List String)
  deriving DecidableEq

/-- The `additional_advantages` literal appended in `create_advantage_slide`. -/
def additionalAdvantages : List String :=
  [ "Industry-leading innovation and technology",
    "Proven track record of success",
    "Comprehensive support and resources" ]

/-- The effect of `create_advantage_slide` on its `content` argument:
`bullets = content[field]` aliases the stored list, and
`bullets.extend(additional_advantages)` therefore mutates the bundle in
place.  The first present field of `differentiators`/`bullets`/`advantages`
is extended; with no such field the local `[]` is extended and the record is
untouched. -/
def advantageSlideContentEffect (c : AdvContent) : AdvContent :=
  match c.differentiators with
  | some l => { c with differentiators := some (l ++ additionalAdvantages) }
  | none =>
      match c.bullets with
      | some l => { c with bullets := some (l ++ additionalAdvantages) }
      | none =>
          match c.advantages with
          | some l => { c with advantages := some (l ++ additionalAdvantages) }
          | none => c

/-! ## Basic string lemmas -/

theorem pySplitAux_acc (t : List Char) :
    ∀ acc, acc ≠ [] →
      pySplitAux t acc =
        (acc.reverse ++ t.takeWhile notWS) :: pySplit (t.dropWhile notWS) := by
  induction t with
  | nil =>
      intro acc h
      simp [pySplitAux, pySplit, h]
  | cons c t ih =>
      intro acc h
      by_cases hc : pyIsSpace c
      · have hnot : notWS c = false := by simp [notWS, hc]
        simp [pySplitAux, hc, h, List.takeWhile_cons, hnot, List.dropWhile_cons,
          pySplit]
      · have hnot : notWS c = true := by simp [notWS, hc]
        rw [List.takeWhile_cons, List.dropWhile_cons]
        simp only [hnot, if_true]
        rw [pySplitAux, if_neg hc, ih (c :: acc) (by simp)]
        simp

theorem pySplit_nil : pySplit [] = [] := rfl

theorem pySplit_cons_ws {c : Char} (hc : pyIsSpace c) (t : List Char) :
    pySplit (c :: t) = pySplit t := by
  simp [pySplit, pySplitAux, hc]

theorem pySplit_cons_word {c : Char} (hc : ¬ pyIsSpace c) (t : List Char) :
    pySplit (c :: t) =
      (c :: t.takeWhile notWS) :: pySplit (t.dropWhile notWS) := by
  rw [pySplit, pySplitAux, if_neg hc, pySplitAux_acc t [c] (by simp)]
  simp

theorem pySplitAux_append_ws {c : Char} (hc : pyIsSpace c) (b : List Char) :
    ∀ (a acc : List Char),
      pySplitAux (a ++ c :: b) acc = pySplitAux a acc ++ pySplit b := by
  intro a
  induction a with
  | nil =>
      intro acc
      by_cases h : acc = [] <;> simp [pySplitAux, hc, h, pySplit]
  | cons x a ih =>
      intro acc
      by_cases hx : pyIsSpace x
      · by_cases h : acc = [] <;> simp [pySplitAux, hx, h, ih]
      · simp [pySplitAux, hx, ih]

/-- Splitting distributes across an explicit whitespace separator. -/
theorem pySplit_append_ws {c : Char} (hc : pyIsSpace c) (a b : List Char) :
    pySplit (a ++ c :: b) = pySplit a ++ pySplit b :=
  pySplitAux_append_ws hc b a []

theorem pySplit_all_ws : ∀ {s : List Char}, (∀ c ∈ s, pyIsSpace c) →
    pySplit s = [] := by
  intro s
  induction s with
  | nil => intro _; rfl
  | cons c t ih =>
      intro h
      rw [pySplit_cons_ws (h c (by simp))]
      exact ih fun d hd => h d (by simp [hd])

/-- Appending an all-whitespace suffix does not change the word sequence. -/
theorem pySplit_append_all_ws {s : List Char} (x : List Char)
    (h : ∀ c ∈ s, pyIsSpace c) : pySplit (x ++ s) = pySplit x := by
  cases s with
  | nil => simp
  | cons c t =>
      have ht : pySplit t = [] :=
        pySplit_all_ws fun d hd => h d (List.mem_cons_of_mem c hd)
      rw [pySplit_append_ws (h c (by simp)) x t, ht, List.append_nil]

theorem pySplitAux_no_ws : ∀ (w acc : List Char), (∀ c ∈ w, ¬ pyIsSpace c) →
    pySplitAux w acc =
      if acc.reverse ++ w = [] then [] else [acc.reverse ++ w] := by
  intro w
  induction w with
  | nil => intro acc _; simp [pySplitAux]
  | cons c t ih =>
      intro acc h
      rw [pySplitAux, if_neg (h c (by simp)), ih (c :: acc)
        (fun d hd => h d (by simp [hd]))]
      simp

/-- A non-empty word with no whitespace splits to itself. -/
theorem pySplit_word {w : List Char} (hne : w ≠ [])
    (h : ∀ c ∈ w, ¬ pyIsSpace c) : pySplit w = [w] := by
  rw [pySplit, pySplitAux_no_ws w [] h]
  simp [hne]

/-- Every token produced by `pySplit` is non-empty and whitespace-free. -/
theorem pySplit_tokens : ∀ (l acc : List Char), (∀ c ∈ acc, ¬ pyIsSpace c) →
    ∀ w ∈ pySplitAux l acc, w ≠ [] ∧ ∀ c ∈ w, ¬ pyIsSpace c := by
  intro l
  induction l with
  | nil =>
      intro acc hacc w hw
      by_cases h : acc = []
      · simp [pySplitAux, h] at hw
      · rw [pySplitAux, if_neg h] at hw
        simp only [List.mem_singleton] at hw
        subst hw
        refine ⟨by simpa using h, fun c hc => hacc c (by simpa using hc)⟩
  | cons x t ih =>
      intro acc hacc w hw
      by_cases hx : pyIsSpace x
      · by_cases h : acc = []
        · rw [pySplitAux, if_pos hx, if_pos h] at hw
          exact ih [] (by simp) w hw
        · rw [pySplitAux, if_pos hx, if_neg h] at hw
          rcases List.mem_cons.mp hw with h1 | h2
          · subst h1
            refine ⟨by simpa using h, fun c hc => hacc c (by simpa using hc)⟩
          · exact ih [] (by simp) w h2
      · rw [pySplitAux, if_neg hx] at hw
        refine ih (x :: acc) ?_ w hw
        intro c hc
        rcases List.mem_cons.mp hc with h1 | h2
        · subst h1; exact hx
        · exact hacc c h2

theorem pySplit_mem_tokens {l w : List Char} (hw : w ∈ pySplit l) :
    w ≠ [] ∧ ∀ c ∈ w, ¬ pyIsSpace c :=
  pySplit_tokens l [] (by simp) w hw

/-- `pySplit` is a left inverse of `joinWords` on valid token lists. -/
theorem pySplit_joinWords : ∀ {ts : List (List Char)},
    (∀ w ∈ ts, w ≠ [] ∧ ∀ c ∈ w, ¬ pyIsSpace c) →
    pySplit (joinWords ts) = ts := by
  intro ts
  induction ts with
  | nil => intro _; rfl
  | cons w ws ih =>
      intro h
      cases ws with
      | nil =>
          have hw := h w (by simp)
          simpa [joinWords] using pySplit_word hw.1 hw.2
      | cons w2 ws2 =>
          have hsp : pyIsSpace ' ' := by decide
          have hw := h w (by simp)
          have h2 : ∀ v ∈ w2 :: ws2, v ≠ [] ∧ ∀ c ∈ v, ¬ pyIsSpace c :=
            fun v hv => h v (List.mem_cons_of_mem w hv)
          have hj : joinWords (w :: w2 :: ws2) =
              w ++ ' ' :: joinWords (w2 :: ws2) := rfl
          rw [hj, pySplit_append_ws hsp w (joinWords (w2 :: ws2)),
            pySplit_word hw.1 hw.2, ih h2]
          rfl

theorem pySplitAux_length_one_le : ∀ (l acc : List Char), acc ≠ [] →
    1 ≤ (pySplitAux l acc).length := by
  intro l
  induction l with
  | nil => intro acc h; simp [pySplitAux, h]
  | cons c t ih =>
      intro acc h
      by_cases hc : pyIsSpace c
      · simp [pySplitAux, hc, h]
      · rw [pySplitAux, if_neg hc]
        exact ih (c :: acc) (by simp)

theorem pySplitAux_append_le : ∀ (x y acc : List Char),
    (pySplitAux x acc).length ≤ (pySplitAux (x ++ y) acc).length := by
  intro x
  induction x with
  | nil =>
      intro y acc
      by_cases h : acc = []
      · simp [pySplitAux, h]
      · rw [pySplitAux, if_neg h]
        simpa using pySplitAux_length_one_le y acc h
  | cons c t ih =>
      intro y acc
      by_cases hc : pyIsSpace c
      · by_cases h : acc = [] <;>
          simp [pySplitAux, hc, h, ih]
      · simp only [List.cons_append, pySplitAux, if_neg hc]
        exact ih y (c :: acc)

/-- Taking a prefix of a string can only reduce its word count. -/
theorem wordCount_take_le (n : Nat) (l : List Char) :
    wordCount (l.take n) ≤ wordCount l := by
  have h := pySplitAux_append_le (l.take n) (l.drop n) []
  rw [List.take_append_drop] at h
  exact h

theorem pySplit_lstrip (l : List Char) :
    pySplit (l.dropWhile pyIsSpace) = pySplit l := by
  induction l with
  | nil => rfl
  | cons c t ih =>
      by_cases hc : pyIsSpace c
      · rw [List.dropWhile_cons, if_pos hc, ih, pySplit_cons_ws hc]
      · rw [List.dropWhile_cons, if_neg hc]

theorem pyRstrip_decomp (l : List Char) (p : Char → Bool) :
    ∃ s, l = pyRstrip l p ++ s ∧ ∀ c ∈ s, p c := by
  refine ⟨(l.reverse.takeWhile p).reverse, ?_, ?_⟩
  · rw [pyRstrip]
    rw [← List.reverse_append, List.takeWhile_append_dropWhile, List.reverse_reverse]
  · intro c hc
    rw [List.mem_reverse] at hc
    exact List.mem_takeWhile_imp hc

theorem pySplit_rstrip_ws (l : List Char) :
    pySplit (pyRstrip l pyIsSpace) = pySplit l := by
  obtain ⟨s, hdec, hs⟩ := pyRstrip_decomp l pyIsSpace
  conv_rhs => rw [hdec]
  rw [pySplit_append_all_ws _ hs]

/-- Stripping boundary whitespace does not change the word sequence. -/
theorem pySplit_pyStrip (l : List Char) : pySplit (pyStrip l) = pySplit l := by
  rw [pyStrip, pySplit_rstrip_ws, pyLstrip, pySplit_lstrip]

theorem pyRstrip_length_le (l : List Char) (p : Char → Bool) :
    (pyRstrip l p).length ≤ l.length := by
  rw [pyRstrip]
  simpa using (List.dropWhile_sublist (l := l.reverse) (p := p)).length_le

theorem pyStrip_length_le (l : List Char) : (pyStrip l).length ≤ l.length := by
  calc (pyStrip l).length ≤ (pyLstrip l pyIsSpace).length :=
        pyRstrip_length_le _ _
    _ ≤ l.length :=
        (List.dropWhile_sublist (l := l) (p := pyIsSpace)).length_le

example :
    ensure_complete_sentences "manua".toList = some " manual processes.".toList := by
  decide

example : ensure_complete_sentences "...".toList = none := by decide

example : ensure_complete_sentences "abc,".toList = some "abc,".toList := by
  decide

example :
    truncate_text_for_slide "abc e".toList (some 5) none =
      some "abc e.".toList := by decide

example :
    truncate_text_for_slide "abc e.".toList (some 5) none =
      some "abc.".toList := by decide

example :
    deduplicate_content [.str "foo bar".toList, .str "Foo The Bar".toList]
      none = [.str "foo bar".toList, .str "Foo The Bar".toList] := by decide

example : dedupKey "Foo The Bar".toList = "foo bar".toList := by decide

/-! ## Planner lemmas -/

theorem planCandidates_no_special (persona : String) :
    "team_slide" ∉ planCandidates persona ∧
      "cta_slide" ∉ planCandidates persona := by
  unfold planCandidates
  split_ifs <;> exact ⟨by decide, by decide⟩

theorem planBase_subset_keys (keys : List String) (persona : String)
    {t : String} (ht : t ∈ planBase keys persona) : t ∈ keys := by
  have := (List.mem_filter.mp ht).2
  simpa using this

theorem planBase_no_team (keys : List String) (persona : String) :
    "team_slide" ∉ planBase keys persona := fun h =>
  (planCandidates_no_special persona).1 (List.mem_filter.mp h).1

theorem planBase_no_cta (keys : List String) (persona : String) :
    "cta_slide" ∉ planBase keys persona := fun h =>
  (planCandidates_no_special persona).2 (List.mem_filter.mp h).1

theorem mem_planWithTeam {t : String} (includeTeam : Bool)
    (cfgMembers : List TeamMember) (order : List String)
    (ht : t ∈ planWithTeam includeTeam cfgMembers order) :
    t ∈ order ∨ t = "team_slide" := by
  unfold planWithTeam at ht
  split_ifs at ht with h
  · rcases List.mem_append.mp ht with h1 | h1
    · exact Or.inl h1
    · exact Or.inr (by simpa using h1)
  · exact Or.inl ht

theorem mem_planAppendCta {t : String} (keys : List String)
    (order : List String) (ht : t ∈ planAppendCta keys order) :
    t ∈ order ∨ (t = "cta_slide" ∧ t ∈ keys) := by
  unfold planAppendCta at ht
  split_ifs at ht with h
  · rcases List.mem_append.mp ht with h1 | h1
    · exact Or.inl h1
    · have h1 : t = "cta_slide" := by simpa using h1
      have hk := (Bool.and_eq_true_iff.mp h).1
      exact Or.inr ⟨h1, by subst h1; simpa using hk⟩
  · exact Or.inl ht

/-- `team_slide` enters the default order exactly when the team-config flag
is set and the team-config roster is non-empty. -/
theorem team_mem_plan (keys : List String) (persona : String)
    (includeTeam : Bool) (cfgMembers : List TeamMember) :
    "team_slide" ∈ planSlideOrder keys persona includeTeam cfgMembers ↔
      includeTeam = true ∧ cfgMembers ≠ [] := by
  unfold planSlideOrder
  constructor
  · intro h
    rcases mem_planAppendCta keys _ h with h1 | h1
    · rcases mem_planWithTeam includeTeam cfgMembers _ h1 with h2 | _
      · exact absurd h2 (planBase_no_team keys persona)
      · unfold planWithTeam at h1
        split_ifs at h1 with hg
        · have hb := Bool.and_eq_true_iff.mp hg
          exact ⟨hb.1, by simpa using hb.2⟩
        · exact absurd h1 (planBase_no_team keys persona)
    · exact absurd h1.1 (by decide)
  · intro ⟨h1, h2⟩
    have hmem : "team_slide" ∈
        planWithTeam includeTeam cfgMembers (planBase keys persona) := by
      unfold planWithTeam
      rw [if_pos (by simp [h1, h2])]
      simp
    unfold planAppendCta
    split_ifs <;> simp [hmem]

/-! ## Claim theorems -/

/-- C1.  The claim "the Deduplicator's output contains no two elements whose
canonical dedup key is equal and non-empty" fails for `deduplicate_content`:
on input `["foo bar", "Foo The Bar"]` the second item's cleaned text is
strictly longer than the stored variant for the same key, and the code
*appends* it to `cleaned_content` without removing the first occurrence, so
both survive with the identical non-empty key `"foo bar"`. -/
theorem C1_dedup_content_keeps_both_variants :
    deduplicate_content
        [ContentItem.str "foo bar".toList, ContentItem.str "Foo The Bar".toList]
        none =
      [ContentItem.str "foo bar".toList,
        ContentItem.str "Foo The Bar".toList] ∧
    dedupKey "foo bar".toList = dedupKey "Foo The Bar".toList ∧
    dedupKey "foo bar".toList ≠ [] := by decide

/-- C9.  The claim "slide builders leave the content bundle unchanged" fails
for `create_advantage_slide`: `bullets = content["differentiators"]` aliases
the bundle's list and `bullets.extend(additional_advantages)` mutates it, so
the `differentiators` field grows by the three boilerplate advantage
strings. -/
theorem C9_advantage_builder_mutates_bundle :
    advantageSlideContentEffect
        ⟨"Why Us", some ["Fast deployment"], none, none⟩ ≠
      ⟨"Why Us", some ["Fast deployment"], none, none⟩ ∧
    (advantageSlideContentEffect
        ⟨"Why Us", some ["Fast deployment"], none, none⟩).differentiators =
      some ("Fast deployment" :: additionalAdvantages) := by decide

/-- C10.  The claim "the last-character inspection after stripping trailing
periods and spaces is always in bounds, including for inputs consisting only
of periods and spaces" fails: on the non-empty input `"..."` the
`rstrip('. ')` result is empty and `text[-1]` raises `IndexError` (modelled
as `none`), and the exception propagates through
`truncate_text_for_slide`. -/
theorem C10_ensure_raises_on_dots_only :
    "...".toList ≠ [] ∧
    ensure_complete_sentences "...".toList = none ∧
    truncate_text_for_slide "...".toList none none = none := by decide

/-- C3 counterexample.  With the team-slide flag set and a non-empty
team-config roster, the planner appends `"team_slide"` to the default order
without checking that it is a key of the content bundle, so the produced
order contains an identifier absent from the bundle. -/
theorem C3_counterexample_team_slide_not_in_bundle :
    planSlideOrder ["title_slide"] "business" true
        [TeamMember.entry "Alice Carter" "Engineer"] =
      ["title_slide", "team_slide"] ∧
    "team_slide" ∉ ["title_slide"] := by decide

/-- C3 (amended).  When no custom slide order is supplied, every element of
the planned order *except possibly `"team_slide"`* is a key of the content
bundle (the team-slide append is gated only on the team configuration), and
whenever `"cta_slide"` is a key of the bundle the planner places it as the
last element of the order. -/
theorem C3_plan_order_amended (keys : List String) (persona : String)
    (includeTeam : Bool) (cfgMembers : List TeamMember) :
    (∀ t ∈ planSlideOrder keys persona includeTeam cfgMembers,
        t ≠ "team_slide" → t ∈ keys) ∧
    ("cta_slide" ∈ keys →
      (planSlideOrder keys persona includeTeam cfgMembers).getLast? =
        some "cta_slide") := by
  constructor
  · intro t ht hne
    rcases mem_planAppendCta keys _ ht with h1 | h1
    · rcases mem_planWithTeam includeTeam cfgMembers _ h1 with h2 | h2
      · exact planBase_subset_keys keys persona h2
      · exact absurd h2 hne
    · exact h1.2
  · intro hcta
    have hnocta : "cta_slide" ∉
        planWithTeam includeTeam cfgMembers (planBase keys persona) := by
      intro h
      rcases mem_planWithTeam includeTeam cfgMembers _ h with h2 | h2
      · exact planBase_no_cta keys persona h2
      · exact absurd h2 (by decide)
    unfold planSlideOrder planAppendCta
    rw [if_pos ?_]
    · exact List.getLast?_concat _
    · simp only [Bool.and_eq_true, decide_eq_true_eq, Bool.not_eq_true']
      exact ⟨hcta, by simpa using hnocta⟩

/-- C3 witness: the amended planner theorem applied at a concrete bundle. -/
theorem C3_plan_order_amended_witness :
    "title_slide" ∈ planSlideOrder ["title_slide", "cta_slide"] "business"
        false [] ∧
    "title_slide" ∈ ["title_slide", "cta_slide"] ∧
    (planSlideOrder ["title_slide", "cta_slide"] "business" false
        []).getLast? = some "cta_slide" :=
  ⟨by decide,
    (C3_plan_order_amended ["title_slide", "cta_slide"] "business" false
        []).1 "title_slide" (by decide) (by decide),
    (C3_plan_order_amended ["title_slide", "cta_slide"] "business" false
        []).2 (by decide)⟩

/-- Characterization of one build's team-slide outcome (default order): all
five gates of the pipeline, with the planner gate reading the team-config
roster and the wrapper gate reading the bundle's own roster. -/
theorem teamSlideCreated_eq (keys : List String) (persona : String)
    (includeTeam : Bool) (cfgMembers roster : List TeamMember) :
    teamSlideCreated keys persona includeTeam cfgMembers roster =
      (includeTeam && !cfgMembers.isEmpty && decide ("team_slide" ∈ keys)
        && !roster.isEmpty && hasRealNames roster) := by
  have h1 : decide
      ("team_slide" ∈ planSlideOrder keys persona includeTeam cfgMembers) =
      (includeTeam && !cfgMembers.isEmpty) := by
    by_cases hmem : "team_slide" ∈ planSlideOrder keys persona includeTeam
        cfgMembers
    · rw [decide_eq_true hmem]
      obtain ⟨ha, hb⟩ := (team_mem_plan keys persona includeTeam
        cfgMembers).mp hmem
      simp [ha, hb]
    · rw [decide_eq_false hmem]
      cases h2 : (includeTeam && !cfgMembers.isEmpty) with
      | false => rfl
      | true =>
          obtain ⟨ha, hb⟩ := Bool.and_eq_true_iff.mp h2
          exact absurd ((team_mem_plan keys persona includeTeam
            cfgMembers).mpr ⟨ha, by simpa using hb⟩) hmem
  have hb : ∀ (i c k r h2 : Bool),
      ((i && c) && k && ((i && r) && h2)) = (i && c && k && r && h2) := by
    decide
  unfold teamSlideCreated teamSlideWrapperCreates
  rw [h1]
  exact hb includeTeam (!cfgMembers.isEmpty) (decide ("team_slide" ∈ keys))
    (!roster.isEmpty) (hasRealNames roster)

/-- C8 counterexample.  A build with the inclusion flag set and a non-empty,
non-generic roster still produces no team slide when `"team_slide"` is not a
key of the content bundle: the conditions of the claim hold but the build
loop skips the order entry, so the claimed "iff" fails. -/
theorem C8_counterexample_missing_bundle_key :
    teamSlideCreated ["title_slide"] "business" true
        [TeamMember.entry "Alice Carter" "Engineer"]
        [TeamMember.entry "Alice Carter" "Engineer"] = false ∧
    hasRealNames [TeamMember.entry "Alice Carter" "Engineer"] = true ∧
    ([TeamMember.entry "Alice Carter" "Engineer"] : List TeamMember) ≠
      [] := by decide

/-- C8 (amended).  With the default slide order, a team slide is created iff
the inclusion flag is set, the team-config roster is non-empty,
`"team_slide"` is a key of the content bundle, and the bundle's own
`team_slide.team_members` roster is non-empty and passes the generic-name
scan; in particular the all-generic roster `[{"name": "John Doe", "title":
"CEO"}]` never yields a team slide. -/
theorem C8_team_slide_amended :
    (∀ (keys : List String) (persona : String) (includeTeam : Bool)
        (cfgMembers roster : List TeamMember),
      teamSlideCreated keys persona includeTeam cfgMembers roster =
        (includeTeam && !cfgMembers.isEmpty && decide ("team_slide" ∈ keys)
          && !roster.isEmpty && hasRealNames roster)) ∧
    (∀ (keys : List String) (persona : String) (includeTeam : Bool)
        (cfgMembers : List TeamMember),
      teamSlideCreated keys persona includeTeam cfgMembers
        [TeamMember.entry "John Doe" "CEO"] = false) := by
  refine ⟨teamSlideCreated_eq, ?_⟩
  intro keys persona includeTeam cfgMembers
  rw [teamSlideCreated_eq]
  simp [hasRealNames, genericNames]

/-! ## Image-layer lemmas -/

theorem fetchUniqueLoop_some_spec (h : Nat → Nat) (slide : String) :
    ∀ (n : Nat) (s : ImgState) (b : Nat) (s2 : ImgState),
      fetchUniqueLoop h slide n s = (some b, s2) →
      h b ∉ s.used ∧ s2.used = h b :: s.used := by
  intro n
  induction n with
  | zero =>
      intro s b s2 heq
      simp [fetchUniqueLoop] at heq
  | succ n ih =>
      intro s b s2 heq
      rw [fetchUniqueLoop] at heq
      cases hf : s.feed with
      | nil => rw [hf] at heq; simp at heq
      | cons r rest =>
          rw [hf] at heq
          cases r with
          | none => simp at heq
          | some img =>
              simp only at heq
              split_ifs at heq with hmem
              · exact ih { s with feed := rest } b s2 heq
              · injection heq with h1 h2
                injection h1 with h1
                subst h1
                subst h2
                exact ⟨hmem, rfl⟩

theorem fetch_with_cache_some_spec (h : Nat → Nat) (slide : String)
    (s : ImgState) (b : Nat) (s2 : ImgState)
    (heq : fetch_image_with_cache h slide true s = (some b, s2)) :
    h b ∉ s.used ∧ s2.used = h b :: s.used := by
  cases hc : cacheLookup s.cache slide with
  | some cached =>
      by_cases h1 : h cached ∉ s.used
      · have hval : fetch_image_with_cache h slide true s =
            (some cached, { s with used := h cached :: s.used }) := by
          unfold fetch_image_with_cache
          rw [hc]
          simp [h1]
        rw [hval] at heq
        injection heq with ha hb
        injection ha with ha
        subst ha
        subst hb
        exact ⟨h1, rfl⟩
      · have hval : fetch_image_with_cache h slide true s =
            fetchUniqueLoop h slide 3 s := by
          unfold fetch_image_with_cache fetch_unique_image
          rw [hc]
          simp [h1]
        rw [hval] at heq
        exact fetchUniqueLoop_some_spec h slide 3 s b s2 heq
  | none =>
      have hval : fetch_image_with_cache h slide true s =
          fetchUniqueLoop h slide 3 s := by
        unfold fetch_image_with_cache fetch_unique_image
        rw [hc]
        simp
      rw [hval] at heq
      exact fetchUniqueLoop_some_spec h slide 3 s b s2 heq

theorem fetchUniqueLoop_exhausted (h : Nat → Nat) (slide : String) :
    ∀ (n : Nat) (s : ImgState),
      (∀ b ∈ (s.feed.take n).filterMap id, h b ∈ s.used) →
      (fetchUniqueLoop h slide n s).1 = none := by
  intro n
  induction n with
  | zero => intro s _; rfl
  | succ n ih =>
      intro s hfeed
      rw [fetchUniqueLoop]
      cases hf : s.feed with
      | nil => rfl
      | cons r rest =>
          cases r with
          | none => rfl
          | some img =>
              have himg : h img ∈ s.used := by
                apply hfeed
                rw [hf]
                simp
              simp only [himg, if_pos]
              apply ih
              intro b hb
              apply hfeed
              rw [hf]
              simp only [List.take_succ_cons, List.filterMap_cons]
              simp at hb ⊢
              exact Or.inr hb

theorem fetchUniqueLoop_none_spec (h : Nat → Nat) (slide : String) :
    ∀ (n : Nat) (s s2 : ImgState),
      fetchUniqueLoop h slide n s = (none, s2) → s2.used = s.used := by
  intro n
  induction n with
  | zero =>
      intro s s2 heq
      simp only [fetchUniqueLoop] at heq
      injection heq with _ h2
      rw [← h2]
  | succ n ih =>
      intro s s2 heq
      rw [fetchUniqueLoop] at heq
      cases hf : s.feed with
      | nil =>
          rw [hf] at heq
          injection heq with _ h2
          rw [← h2]
      | cons r rest =>
          rw [hf] at heq
          cases r with
          | none =>
              injection heq with _ h2
              rw [← h2]
          | some img =>
              simp only at heq
              split_ifs at heq with hmem
              · exact ih { s with feed := rest } s2 heq
              · simp at heq

theorem fetch_with_cache_none_spec (h : Nat → Nat) (slide : String)
    (s s2 : ImgState)
    (heq : fetch_image_with_cache h slide true s = (none, s2)) :
    s2.used = s.used := by
  cases hc : cacheLookup s.cache slide with
  | some cached =>
      by_cases h1 : h cached ∉ s.used
      · have hval : fetch_image_with_cache h slide true s =
            (some cached, { s with used := h cached :: s.used }) := by
          unfold fetch_image_with_cache
          rw [hc]
          simp [h1]
        rw [hval] at heq
        simp at heq
      · have hval : fetch_image_with_cache h slide true s =
            fetchUniqueLoop h slide 3 s := by
          unfold fetch_image_with_cache fetch_unique_image
          rw [hc]
          simp [h1]
        rw [hval] at heq
        exact fetchUniqueLoop_none_spec h slide 3 s s2 heq
  | none =>
      have hval : fetch_image_with_cache h slide true s =
          fetchUniqueLoop h slide 3 s := by
        unfold fetch_image_with_cache fetch_unique_image
        rw [hc]
        simp
      rw [hval] at heq
      exact fetchUniqueLoop_none_spec h slide 3 s s2 heq

/-- A fetch-layer call never removes a hash from the shared used set. -/
theorem fetch_with_cache_used_mono (h : Nat → Nat) (slide : String)
    (s : ImgState) {x : Nat} (hx : x ∈ s.used) :
    x ∈ (fetch_image_with_cache h slide true s).2.used := by
  cases hr : fetch_image_with_cache h slide true s with
  | mk r s2 =>
      simp only
      cases r with
      | none => rw [fetch_with_cache_none_spec h slide s s2 hr]; exact hx
      | some b =>
          obtain ⟨_, hu⟩ := fetch_with_cache_some_spec h slide s b s2 hr
          rw [hu]
          exact List.mem_cons_of_mem _ hx

theorem runFetchCalls_cons_fst (h : Nat → Nat) (sl : String)
    (rest : List String) (s : ImgState) :
    (runFetchCalls h (sl :: rest) s).1 =
      (fetch_image_with_cache h sl true s).1 ::
        (runFetchCalls h rest (fetch_image_with_cache h sl true s).2).1 := rfl

theorem runFetchCalls_used_mono (h : Nat → Nat) :
    ∀ (slides : List String) (s : ImgState) {x : Nat}, x ∈ s.used →
      x ∈ (runFetchCalls h slides s).2.used := by
  intro slides
  induction slides with
  | nil => intro s x hx; exact hx
  | cons sl rest ih =>
      intro s x hx
      exact ih _ (fetch_with_cache_used_mono h sl s hx)

/-- Any success in a build trace carries a hash that was absent from the
build's starting used set and is recorded in its final used set. -/
theorem runFetchCalls_success_spec (h : Nat → Nat) :
    ∀ (slides : List String) (s : ImgState) (i : Nat) (b : Nat),
      (runFetchCalls h slides s).1[i]? = some (some b) →
      h b ∉ s.used ∧ h b ∈ (runFetchCalls h slides s).2.used := by
  intro slides
  induction slides with
  | nil => intro s i b hi; simp [runFetchCalls] at hi
  | cons sl rest ih =>
      intro s i b hi
      rw [runFetchCalls_cons_fst] at hi
      cases i with
      | zero =>
          simp only [List.getElem?_cons_zero, Option.some.injEq] at hi
          have hpair : fetch_image_with_cache h sl true s =
              (some b, (fetch_image_with_cache h sl true s).2) := by
            rw [← hi]
          obtain ⟨hnot, hu⟩ :=
            fetch_with_cache_some_spec h sl s b _ hpair
          refine ⟨hnot, ?_⟩
          apply runFetchCalls_used_mono h rest
          rw [hu]
          exact List.mem_cons_self _ _
      | succ k =>
          simp only [List.getElem?_cons_succ] at hi
          obtain ⟨hnot, hfin⟩ := ih _ k b hi
          refine ⟨?_, hfin⟩
          intro hmem
          exact hnot (fetch_with_cache_used_mono h sl s hmem)

/-- C4.  Within one new-presentation build — any sequence of fetch-layer
calls threading the one shared `used_images` set — any two calls that both
return image bytes, adjacent or not, return bytes with distinct content
hashes; and when none of the (up to) 3 fetch attempts yields an unused hash,
`fetch_unique_image` returns no image rather than a repeat. -/
theorem C4_image_layer_unique_hashes :
    (∀ (h : Nat → Nat) (slides : List String) (s : ImgState) (i j b1 b2 : Nat),
        i < j →
        (runFetchCalls h slides s).1[i]? = some (some b1) →
        (runFetchCalls h slides s).1[j]? = some (some b2) →
        h b1 ≠ h b2) ∧
    (∀ (h : Nat → Nat) (sl : String) (s : ImgState),
        (∀ b ∈ (s.feed.take 3).filterMap id, h b ∈ s.used) →
        (fetch_unique_image h sl true s).1 = none) := by
  constructor
  · intro h slides
    induction slides with
    | nil => intro s i j b1 b2 _ hi _; simp [runFetchCalls] at hi
    | cons sl rest ih =>
        intro s i j b1 b2 hij hi hj
        rw [runFetchCalls_cons_fst] at hi hj
        cases j with
        | zero => omega
        | succ k =>
            simp only [List.getElem?_cons_succ] at hj
            cases i with
            | zero =>
                simp only [List.getElem?_cons_zero, Option.some.injEq] at hi
                have hpair : fetch_image_with_cache h sl true s =
                    (some b1, (fetch_image_with_cache h sl true s).2) := by
                  rw [← hi]
                obtain ⟨_, hu1⟩ :=
                  fetch_with_cache_some_spec h sl s b1 _ hpair
                obtain ⟨hn2, _⟩ := runFetchCalls_success_spec h rest _ k b2 hj
                intro heq
                apply hn2
                rw [hu1, ← heq]
                exact List.mem_cons_self _ _
            | succ m =>
                simp only [List.getElem?_cons_succ] at hi
                exact ih _ m k b1 b2 (by omega) hi hj
  · intro h sl s hfeed
    unfold fetch_unique_image
    simpa using fetchUniqueLoop_exhausted h sl 3 s hfeed

/-! ## Character-class lemmas -/

theorem char_ofNat_toNat {n : Nat} (h1 : n < 55296) :
    (Char.ofNat n).toNat = n := by
  unfold Char.ofNat
  split
  · rfl
  · next h => exact absurd (Or.inl (by omega)) h

theorem pyIsSpace_cases {c : Char} (h : pyIsSpace c = true) :
    c = ' ' ∨ c = '\t' ∨ c = '\n' ∨ c = '\x0d' ∨ c = '\x0b' ∨ c = '\x0c' := by
  have h2 := h
  simp [pyIsSpace] at h2
  tauto

theorem pyIsSpace_toNat_le {c : Char} (h : pyIsSpace c = true) :
    c.toNat ≤ 32 := by
  rcases pyIsSpace_cases h with rfl | rfl | rfl | rfl | rfl | rfl <;> decide

theorem isUpper_iff (c : Char) :
    c.isUpper = true ↔ 65 ≤ c.toNat ∧ c.toNat ≤ 90 := by
  simp [Char.isUpper, UInt32.le_def, BitVec.le_def, Char.toNat, UInt32.toNat]

theorem isLower_iff (c : Char) :
    c.isLower = true ↔ 97 ≤ c.toNat ∧ c.toNat ≤ 122 := by
  simp [Char.isLower, UInt32.le_def, BitVec.le_def, Char.toNat, UInt32.toNat]

theorem isDigit_iff (c : Char) :
    c.isDigit = true ↔ 48 ≤ c.toNat ∧ c.toNat ≤ 57 := by
  simp [Char.isDigit, UInt32.le_def, BitVec.le_def, Char.toNat, UInt32.toNat]

theorem isAlphanum_iff (c : Char) :
    c.isAlphanum = true ↔
      (65 ≤ c.toNat ∧ c.toNat ≤ 90) ∨ (97 ≤ c.toNat ∧ c.toNat ≤ 122) ∨
        (48 ≤ c.toNat ∧ c.toNat ≤ 57) := by
  simp only [Char.isAlphanum, Char.isAlpha, Bool.or_eq_true, isUpper_iff,
    isLower_iff, isDigit_iff]
  tauto

theorem toLower_eq_of_not_upper {c : Char}
    (h : ¬(65 ≤ c.toNat ∧ c.toNat ≤ 90)) : c.toLower = c := by
  unfold Char.toLower
  rw [if_neg h]

theorem toLower_toNat_of_upper {c : Char} (h : 65 ≤ c.toNat ∧ c.toNat ≤ 90) :
    (c.toLower).toNat = c.toNat + 32 := by
  unfold Char.toLower
  rw [if_pos h]
  exact char_ofNat_toNat (by omega)

theorem pyIsSpace_toLower (c : Char) : pyIsSpace c.toLower = pyIsSpace c := by
  by_cases h : 65 ≤ c.toNat ∧ c.toNat ≤ 90
  · have h1 : (c.toLower).toNat = c.toNat + 32 := toLower_toNat_of_upper h
    have f1 : pyIsSpace c.toLower = false := by
      cases hx : pyIsSpace c.toLower with
      | false => rfl
      | true => have := pyIsSpace_toNat_le hx; omega
    have f2 : pyIsSpace c = false := by
      cases hx : pyIsSpace c with
      | false => rfl
      | true => have := pyIsSpace_toNat_le hx; omega
    rw [f1, f2]
  · rw [toLower_eq_of_not_upper h]

theorem isAlphanum_toLower (c : Char) :
    (c.toLower).isAlphanum = c.isAlphanum := by
  by_cases h : 65 ≤ c.toNat ∧ c.toNat ≤ 90
  · have h1 := toLower_toNat_of_upper h
    have e1 : (c.toLower).isAlphanum = true :=
      (isAlphanum_iff _).mpr (Or.inr (Or.inl (by omega)))
    have e2 : c.isAlphanum = true := (isAlphanum_iff _).mpr (Or.inl h)
    rw [e1, e2]
  · rw [toLower_eq_of_not_upper h]

theorem ws_not_alnum {c : Char} (h : pyIsSpace c = true) :
    c.isAlphanum = false := by
  rcases pyIsSpace_cases h with rfl | rfl | rfl | rfl | rfl | rfl <;> decide

theorem toLower_ws_fix {c : Char} (h : pyIsSpace c = true) : c.toLower = c := by
  apply toLower_eq_of_not_upper
  have := pyIsSpace_toNat_le h
  omega

theorem keepKeyChar_ws {c : Char} (h : pyIsSpace c = true) :
    keepKeyChar c = true := by
  simp [keepKeyChar, h]

theorem glyph_not_kept {c : Char} (h : isGlyph c = true) :
    keepKeyChar c = false := by
  have h2 := h
  simp [isGlyph] at h2
  have : c = '•' ∨ c = '*' ∨ c = '·' ∨ c = '-' := by tauto
  rcases this with rfl | rfl | rfl | rfl <;> decide

theorem trailPunct_not_kept {c : Char} (h : isTrailPunct c = true) :
    keepKeyChar c = false := by
  have h2 := h
  simp [isTrailPunct] at h2
  have : c = '.' ∨ c = ',' ∨ c = ';' ∨ c = ':' := by tauto
  rcases this with rfl | rfl | rfl | rfl <;> decide

/-! ## `fKey` word-structure lemmas -/

theorem fKey_nil : fKey [] = [] := rfl

theorem fKey_append (a b : List Char) : fKey (a ++ b) = fKey a ++ fKey b := by
  simp [fKey]

theorem fKey_cons_keep {c : Char} (h : keepKeyChar c = true) (t : List Char) :
    fKey (c :: t) = c.toLower :: fKey t := by
  simp [fKey, List.filter_cons, h]

theorem fKey_cons_drop {c : Char} (h : keepKeyChar c = false) (t : List Char) :
    fKey (c :: t) = fKey t := by
  simp [fKey, List.filter_cons, h]

theorem fKey_no_ws {w : List Char} (h : ∀ c ∈ w, ¬ pyIsSpace c) :
    ∀ d ∈ fKey w, ¬ pyIsSpace d := by
  intro d hd
  simp only [fKey, List.mem_map, List.mem_filter] at hd
  obtain ⟨e, ⟨he, _⟩, rfl⟩ := hd
  rw [pyIsSpace_toLower]
  exact h e he

theorem fKey_all_dropped {d : List Char}
    (h : ∀ c ∈ d, keepKeyChar c = false) : fKey d = [] := by
  have : d.filter keepKeyChar = [] := by
    rw [List.filter_eq_nil_iff]
    intro c hc
    simp [h c hc]
  simp [fKey, this]

theorem dropWhile_head_not {α : Type} {p : α → Bool} :
    ∀ {l : List α} {d : α} {r : List α}, l.dropWhile p = d :: r →
      p d = false := by
  intro l
  induction l with
  | nil => intro d r h; simp at h
  | cons x xs ih =>
      intro d r h
      rw [List.dropWhile_cons] at h
      split_ifs at h with hx
      · exact ih h
      · cases h
        simpa using hx

theorem pySplit_fKey_aux : ∀ (n : Nat) (x : List Char), x.length ≤ n →
    pySplit (fKey x) = ((pySplit x).map fKey).filter (fun w => !w.isEmpty) := by
  intro n
  induction n with
  | zero =>
      intro x hx
      have hxe : x = [] := by
        cases x with
        | nil => rfl
        | cons c t => simp at hx
      subst hxe
      rfl
  | succ n ih =>
      intro x hx
      cases x with
      | nil => rfl
      | cons c t =>
          by_cases hc : pyIsSpace c
          · rw [fKey_cons_keep (keepKeyChar_ws hc), toLower_ws_fix hc,
              pySplit_cons_ws hc (fKey t), pySplit_cons_ws hc t]
            exact ih t (Nat.le_of_succ_le_succ (by simpa using hx))
          · rw [pySplit_cons_word hc t]
            have hxw : c :: t =
                (c :: t.takeWhile notWS) ++ t.dropWhile notWS := by
              simp [List.takeWhile_append_dropWhile]
            have hwall : ∀ d ∈ c :: t.takeWhile notWS, ¬ pyIsSpace d := by
              intro d hd
              rcases List.mem_cons.mp hd with rfl | hd
              · exact hc
              · have := List.mem_takeWhile_imp hd
                simpa [notWS] using this
            have hrest_len : (t.dropWhile notWS).length ≤ n := by
              calc (t.dropWhile notWS).length ≤ t.length :=
                    (List.dropWhile_sublist (l := t) (p := notWS)).length_le
                _ ≤ n := Nat.le_of_succ_le_succ (by simpa using hx)
            have ihrest := ih (t.dropWhile notWS) hrest_len
            have hword : pySplit (fKey (c :: t.takeWhile notWS)) =
                List.filter (fun w => !w.isEmpty)
                  [fKey (c :: t.takeWhile notWS)] := by
              by_cases hfk : fKey (c :: t.takeWhile notWS) = []
              · simp [hfk, pySplit_nil]
              · rw [pySplit_word hfk (fKey_no_ws hwall)]
                simp [hfk]
            have hsplitapp :
                pySplit (fKey (c :: t.takeWhile notWS) ++
                    fKey (t.dropWhile notWS)) =
                  pySplit (fKey (c :: t.takeWhile notWS)) ++
                    pySplit (fKey (t.dropWhile notWS)) := by
              cases hd : t.dropWhile notWS with
              | nil => simp [fKey_nil, pySplit_nil]
              | cons d r2 =>
                  have hdws : pyIsSpace d = true := by
                    have := dropWhile_head_not hd
                    simpa [notWS] using this
                  rw [fKey_cons_keep (keepKeyChar_ws hdws),
                    toLower_ws_fix hdws, pySplit_append_ws hdws,
                    pySplit_cons_ws hdws]
            calc pySplit (fKey (c :: t))
                = pySplit (fKey (c :: t.takeWhile notWS) ++
                    fKey (t.dropWhile notWS)) := by
                  rw [← fKey_append, ← hxw]
              _ = pySplit (fKey (c :: t.takeWhile notWS)) ++
                    pySplit (fKey (t.dropWhile notWS)) := hsplitapp
              _ = List.filter (fun w => !w.isEmpty)
                    [fKey (c :: t.takeWhile notWS)] ++
                  ((pySplit (t.dropWhile notWS)).map fKey).filter
                    (fun w => !w.isEmpty) := by rw [hword, ihrest]
              _ = (((c :: t.takeWhile notWS) :: pySplit (t.dropWhile notWS)).map
                    fKey).filter (fun w => !w.isEmpty) := by
                  rw [List.map_cons, List.filter_cons]
                  by_cases hfk : fKey (c :: t.takeWhile notWS) = [] <;>
                    simp [hfk]

/-- The word sequence of the key-filtered, lowercased string is the image of
the original word sequence under `fKey`, with emptied words dropped. -/
theorem pySplit_fKey (x : List Char) :
    pySplit (fKey x) = ((pySplit x).map fKey).filter (fun w => !w.isEmpty) :=
  pySplit_fKey_aux x.length x (Nat.le_refl _)

/-! ## The canonical key factors through `get_comparison_key` alone -/

theorem get_comparison_key_eq (x : List Char) :
    get_comparison_key x =
      joinWords ((pySplit (fKey x)).filter (fun w => decide (w ∉ stopWords))) := by
  by_cases h : x = []
  · subst h; rfl
  · rw [get_comparison_key, if_neg h]

theorem pySplit_fKey_pyStrip (y : List Char) :
    pySplit (fKey (pyStrip y)) = pySplit (fKey y) := by
  rw [pySplit_fKey, pySplit_fKey, pySplit_pyStrip]

theorem fKey_pyRstrip_trailPunct (z : List Char) :
    fKey (pyRstrip z isTrailPunct) = fKey z := by
  obtain ⟨d, hdec, hd⟩ := pyRstrip_decomp z isTrailPunct
  conv_rhs => rw [hdec]
  rw [fKey_append, fKey_all_dropped (fun c hc => trailPunct_not_kept (hd c hc)),
    List.append_nil]

theorem pySplit_fKey_collapse (u : List Char) :
    pySplit (fKey (collapseWS u)) = pySplit (fKey u) := by
  rw [collapseWS, pySplit_fKey, pySplit_fKey,
    pySplit_joinWords (fun w hw => pySplit_mem_tokens hw)]

theorem fKey_removeGlyphs (s : List Char) :
    fKey (removeGlyphs s) = fKey s := by
  rw [fKey, fKey, removeGlyphs, List.filter_filter]
  congr 1
  apply List.filter_congr
  intro c _
  cases hk : keepKeyChar c with
  | false => simp
  | true =>
      have hg : isGlyph c = false := by
        cases hgc : isGlyph c with
        | false => rfl
        | true => rw [glyph_not_kept hgc] at hk; exact absurd hk (by simp)
      simp [hg]

/-- The canonical dedup key of the pipeline equals the comparison key of the
raw text: `clean_and_deduplicate_text` only removes material that
`get_comparison_key` discards anyway. -/
theorem dedupKey_eq_key (s : List Char) :
    dedupKey s = get_comparison_key s := by
  by_cases h0 : s = []
  · subst h0; rfl
  · rw [dedupKey, get_comparison_key_eq, get_comparison_key_eq]
    suffices h : pySplit (fKey (clean_and_deduplicate_text s)) =
        pySplit (fKey s) by rw [h]
    rw [clean_and_deduplicate_text, if_neg h0, pySplit_fKey_pyStrip,
      fKey_pyRstrip_trailPunct, pySplit_fKey_collapse, fKey_removeGlyphs]

/-- C5.  Two strings that differ only in bullet glyphs, letter case,
occurrences of the stop-word set, or trailing punctuation receive the same
canonical dedup key from the Text Normalizer. -/
theorem C5_dedup_key_invariance :
    ∀ {s t : List Char}, DiffOnly s t → dedupKey s = dedupKey t := by
  intro s t h
  induction h with
  | refl s => rfl
  | symm _ ih => exact ih.symm
  | trans _ _ ih1 ih2 => exact ih1.trans ih2
  | glyph a b g hg =>
      rw [dedupKey_eq_key, dedupKey_eq_key, get_comparison_key_eq,
        get_comparison_key_eq]
      have : fKey (a ++ g :: b) = fKey (a ++ b) := by
        rw [fKey_append, fKey_append, fKey_cons_drop (glyph_not_kept hg)]
      rw [this]
  | caseChange a b c d h =>
      rw [dedupKey_eq_key, dedupKey_eq_key, get_comparison_key_eq,
        get_comparison_key_eq]
      have hkeep : keepKeyChar c = keepKeyChar d := by
        have h1 : c.isAlphanum = d.isAlphanum := by
          rw [← isAlphanum_toLower c, ← isAlphanum_toLower d, h]
        have h2 : pyIsSpace c = pyIsSpace d := by
          rw [← pyIsSpace_toLower c, ← pyIsSpace_toLower d, h]
        rw [keepKeyChar, keepKeyChar, h1, h2]
      have : fKey (a ++ c :: b) = fKey (a ++ d :: b) := by
        rw [fKey_append, fKey_append]
        cases hk : keepKeyChar d with
        | false =>
            rw [fKey_cons_drop (hkeep.trans hk), fKey_cons_drop hk]
        | true =>
            rw [fKey_cons_keep (hkeep.trans hk), fKey_cons_keep hk, h]
      rw [this]
  | stopWord a b w hw =>
      rw [dedupKey_eq_key, dedupKey_eq_key, get_comparison_key_eq,
        get_comparison_key_eq]
      have hsp : pyIsSpace ' ' = true := by decide
      have hwfix : fKey w = w ∧ pySplit w = [w] ∧ w ∈ stopWords := by
        refine ⟨?_, ?_, hw⟩ <;> fin_cases hw <;> decide
      have hleft : fKey (a ++ ' ' :: (w ++ ' ' :: b)) =
          fKey a ++ ' ' :: (w ++ ' ' :: fKey b) := by
        rw [fKey_append, fKey_cons_keep (keepKeyChar_ws hsp),
          toLower_ws_fix hsp, fKey_append, fKey_cons_keep (keepKeyChar_ws hsp),
          toLower_ws_fix hsp, hwfix.1]
      have hright : fKey (a ++ ' ' :: b) = fKey a ++ ' ' :: fKey b := by
        rw [fKey_append, fKey_cons_keep (keepKeyChar_ws hsp),
          toLower_ws_fix hsp]
      rw [hleft, hright, pySplit_append_ws hsp, pySplit_append_ws hsp,
        pySplit_append_ws hsp, hwfix.2.1]
      rw [List.filter_append, List.filter_append, List.filter_append]
      have : List.filter (fun v => decide (v ∉ stopWords)) [w] = [] := by
        simp [hw]
      rw [this, List.nil_append]
  | trailPunct s p hp =>
      rw [dedupKey_eq_key, dedupKey_eq_key, get_comparison_key_eq,
        get_comparison_key_eq]
      have h1 : fKey [p] = [] :=
        fKey_all_dropped fun c hc => by
          have he : c = p := by simpa using hc
          rw [he]
          exact trailPunct_not_kept hp
      have : fKey (s ++ [p]) = fKey s := by
        rw [fKey_append, h1, List.append_nil]
      rw [this]

/-- C5 witness: the invariance theorem applied to a concrete derivation
(case change of the leading letter, then removal of a trailing period). -/
theorem C5_dedup_key_invariance_witness :
    dedupKey ("Fast".toList ++ ['.']) = dedupKey "fast".toList :=
  C5_dedup_key_invariance
    (DiffOnly.trans
      (DiffOnly.trailPunct ("Fast".toList) '.' (by decide))
      (DiffOnly.caseChange [] "ast".toList 'F' 'f' (by decide)))

/-! ## Right-strip lemmas -/

theorem getLast?_eq_nil {α : Type} {l : List α} (h : l.getLast? = none) :
    l = [] := by
  cases l with
  | nil => rfl
  | cons a t => rw [List.getLast?_cons] at h; simp at h

theorem getLast?_append_right {α : Type} {a b : List α} (h : b ≠ []) :
    (a ++ b).getLast? = b.getLast? := by
  rw [List.getLast?_append]
  cases hb : b.getLast? with
  | none => exact absurd (getLast?_eq_nil hb) h
  | some c => rfl

theorem pyRstrip_getLast_not {l : List Char} {p : Char → Bool} {c : Char}
    (h : (pyRstrip l p).getLast? = some c) : p c = false := by
  rw [pyRstrip, List.getLast?_reverse] at h
  cases hd : l.reverse.dropWhile p with
  | nil => rw [hd] at h; simp at h
  | cons d r =>
      rw [hd] at h
      simp only [List.head?_cons, Option.some.injEq] at h
      subst h
      exact dropWhile_head_not hd

theorem pyRstrip_of_getLast_not {l : List Char} {p : Char → Bool} {c : Char}
    (hl : l.getLast? = some c) (hc : p c = false) : pyRstrip l p = l := by
  have hh : l.reverse.head? = some c := by rw [List.head?_reverse, hl]
  cases hr : l.reverse with
  | nil => rw [hr] at hh; simp at hh
  | cons d r =>
      rw [hr] at hh
      simp only [List.head?_cons, Option.some.injEq] at hh
      subst hh
      rw [pyRstrip, hr, List.dropWhile_cons, if_neg (by simp [hc]), ← hr,
        List.reverse_reverse]

theorem pyRstrip_append_strip {x : List Char} {p : Char → Bool} {ch : Char}
    (h : p ch = true) : pyRstrip (x ++ [ch]) p = pyRstrip x p := by
  rw [pyRstrip, pyRstrip, List.reverse_append]
  simp [List.dropWhile_cons, h]

theorem pyRstrip_append_of_ne_nil {a b : List Char} {p : Char → Bool}
    (h : pyRstrip b p ≠ []) : pyRstrip (a ++ b) p = a ++ pyRstrip b p := by
  have hb : b.reverse.dropWhile p ≠ [] := by
    intro he
    apply h
    rw [pyRstrip, he]
    rfl
  rw [pyRstrip, List.reverse_append, List.dropWhile_append,
    if_neg (by simpa using hb), List.reverse_append, List.reverse_reverse]
  rfl

/-! ## Completion-table facts -/

theorem findCompletion_mem {lw comp : List Char}
    (h : findCompletion lw = some comp) :
    comp ∈ endingsTable.map Prod.snd := by
  rw [findCompletion] at h
  have : ∀ es : List (List Char × List Char), findCompletion.go lw es = some comp →
      comp ∈ es.map Prod.snd := by
    intro es
    induction es with
    | nil => intro hh; simp [findCompletion.go] at hh
    | cons e rest ih =>
        intro hh
        rw [findCompletion.go] at hh
        split_ifs at hh with hcond
        · simp only [Option.some.injEq] at hh
          subst hh
          simp
        · simpa using Or.inr (by simpa using ih hh)
  exact this endingsTable h

/-- Shape facts about every completion phrase, checked by evaluation: each
ends in a period over an alphanumeric character, strips back to its
`dropLast`, splits into non-empty tokens, and its final token never fires
the table again. -/
theorem endings_comp_props : ∀ comp ∈ endingsTable.map Prod.snd,
    comp ≠ [] ∧
    pyRstrip comp isDotSpace = comp.dropLast ∧
    (comp.dropLast.getLast?.map Char.isAlphanum) = some true ∧
    comp.dropLast ++ ['.'] = comp ∧
    findCompletion (((pySplit comp).getLastD []).map Char.toLower) = none ∧
    pySplit comp ≠ [] := by decide

/-! ## Evaluation lemmas for `ensure_complete_sentences` -/

theorem ensure_eval_some {s : List Char} (h0 : s ≠ []) {lastc : Char}
    (hL : (pyRstrip s isDotSpace).getLast? = some lastc) :
    ensure_complete_sentences s =
      applyCompletion
        (if lastc.isAlphanum then pyRstrip s isDotSpace ++ ['.']
         else pyRstrip s isDotSpace) := by
  rw [ensure_complete_sentences, if_neg h0, hL]

theorem applyCompletion_none_fire {t2 lastw : List Char}
    (hws : (pySplit t2).getLast? = some lastw)
    (hfc : findCompletion (lastw.map Char.toLower) = none) :
    applyCompletion t2 = some t2 := by
  rw [applyCompletion, hws]
  show (match findCompletion (lastw.map Char.toLower) with
    | some comp => some (joinWords (pySplit t2).dropLast ++ ' ' :: comp)
    | none => some t2) = some t2
  rw [hfc]

theorem applyCompletion_fire {t2 lastw comp : List Char}
    (hws : (pySplit t2).getLast? = some lastw)
    (hfc : findCompletion (lastw.map Char.toLower) = some comp) :
    applyCompletion t2 =
      some (joinWords (pySplit t2).dropLast ++ ' ' :: comp) := by
  rw [applyCompletion, hws]
  show (match findCompletion (lastw.map Char.toLower) with
    | some c2 => some (joinWords (pySplit t2).dropLast ++ ' ' :: c2)
    | none => some t2) = some (joinWords (pySplit t2).dropLast ++ ' ' :: comp)
  rw [hfc]

theorem applyCompletion_no_words {t2 : List Char}
    (hws : (pySplit t2).getLast? = none) : applyCompletion t2 = none := by
  rw [applyCompletion, hws]

/-- `ensure_complete_sentences` is idempotent on every string it returns. -/
theorem ensure_idem : ∀ {s r : List Char},
    ensure_complete_sentences s = some r →
    ensure_complete_sentences r = some r := by
  intro s r h
  by_cases h0 : s = []
  · subst h0
    have hr : r = [] := by
      rw [ensure_complete_sentences] at h
      simpa using h.symm
    subst hr
    rfl
  · cases hL : (pyRstrip s isDotSpace).getLast? with
    | none =>
        rw [ensure_complete_sentences, if_neg h0, hL] at h
        simp at h
    | some lastc =>
        rw [ensure_eval_some h0 hL] at h
        generalize hts : pyRstrip s isDotSpace = t at hL h
        have hdslast : isDotSpace lastc = false :=
          pyRstrip_getLast_not (p := isDotSpace) (l := s) (by rw [hts]; exact hL)
        have hrt : pyRstrip t isDotSpace = t :=
          pyRstrip_of_getLast_not hL hdslast
        have htne : t ≠ [] := fun he => by rw [he] at hL; simp at hL
        set t2 := if lastc.isAlphanum then t ++ ['.'] else t with ht2def
        have hrs2 : pyRstrip t2 isDotSpace = t := by
          rw [ht2def]
          split_ifs with ha
          · rw [pyRstrip_append_strip (by decide : isDotSpace '.' = true), hrt]
          · exact hrt
        have ht2ne : t2 ≠ [] := by
          rw [ht2def]
          split_ifs
          · simp
          · exact htne
        cases hws : (pySplit t2).getLast? with
        | none => rw [applyCompletion_no_words hws] at h; simp at h
        | some lastw =>
            cases hfc : findCompletion (lastw.map Char.toLower) with
            | none =>
                rw [applyCompletion_none_fire hws hfc] at h
                have hr : r = t2 := by simpa using h.symm
                subst hr
                rw [ensure_eval_some ht2ne (by rw [hrs2, hL]), hrs2,
                  ← ht2def]
                exact applyCompletion_none_fire hws hfc
            | some comp =>
                rw [applyCompletion_fire hws hfc] at h
                have hr : r = joinWords (pySplit t2).dropLast ++ ' ' :: comp := by
                  simpa using h.symm
                obtain ⟨hc1, hc2, hc3, hc4, hc5, hc6⟩ :=
                  endings_comp_props comp (findCompletion_mem hfc)
                have hdlne : comp.dropLast ≠ [] := by
                  intro he
                  rw [he] at hc3
                  simp at hc3
                obtain ⟨d, hd⟩ : ∃ d, comp.dropLast.getLast? = some d := by
                  cases hx : comp.dropLast.getLast? with
                  | none => exact absurd (getLast?_eq_nil hx) hdlne
                  | some d => exact ⟨d, rfl⟩
                have hdal : d.isAlphanum = true := by
                  rw [hd] at hc3
                  simpa using hc3
                have hrstrip : pyRstrip r isDotSpace =
                    joinWords (pySplit t2).dropLast ++ ' ' :: comp.dropLast := by
                  have he1 : r = (joinWords (pySplit t2).dropLast ++ [' ']) ++
                      comp := by rw [hr]; simp
                  rw [he1, pyRstrip_append_of_ne_nil (by rw [hc2]; exact hdlne),
                    hc2]
                  simp
                have hlast : (joinWords (pySplit t2).dropLast ++
                    ' ' :: comp.dropLast).getLast? = some d := by
                  rw [show joinWords (pySplit t2).dropLast ++ ' ' :: comp.dropLast
                      = (joinWords (pySplit t2).dropLast ++ [' ']) ++
                        comp.dropLast by simp,
                    getLast?_append_right hdlne, hd]
                have hrne : r ≠ [] := by rw [hr]; simp
                have ht2r : (if d.isAlphanum then
                    (joinWords (pySplit t2).dropLast ++ ' ' :: comp.dropLast) ++ ['.']
                    else joinWords (pySplit t2).dropLast ++ ' ' :: comp.dropLast)
                      = r := by
                  rw [if_pos hdal, hr]
                  simp [hc4]
                rw [ensure_eval_some hrne (by rw [hrstrip]; exact hlast),
                  hrstrip, ht2r]
                have htok : ∀ w ∈ (pySplit t2).dropLast,
                    w ≠ [] ∧ ∀ c ∈ w, ¬ pyIsSpace c := by
                  intro w hw
                  apply pySplit_mem_tokens (l := t2)
                  rw [List.dropLast_eq_take] at hw
                  exact List.take_subset _ _ hw
                have hsplitr : pySplit r =
                    (pySplit t2).dropLast ++ pySplit comp := by
                  rw [hr, pySplit_append_ws (by decide) _ comp,
                    pySplit_joinWords htok]
                obtain ⟨lw2, hlw2⟩ : ∃ lw2, (pySplit comp).getLast? = some lw2 := by
                  cases hx : (pySplit comp).getLast? with
                  | none => exact absurd (getLast?_eq_nil hx) hc6
                  | some z => exact ⟨z, rfl⟩
                have hwsr : (pySplit r).getLast? = some lw2 := by
                  rw [hsplitr, getLast?_append_right hc6, hlw2]
                have hfc2 : findCompletion (lw2.map Char.toLower) = none := by
                  have hgl : (pySplit comp).getLastD [] = lw2 := by
                    rw [List.getLastD_eq_getLast?, hlw2]
                    rfl
                  rw [← hgl]
                  exact hc5
                exact applyCompletion_none_fire hwsr hfc2

/-! ## Truncation lemmas -/

theorem getLast?_to_mem {α : Type} {l : List α} {x : α}
    (h : l.getLast? = some x) : x ∈ l := by
  have hx : x ∈ l.getLast? := by rw [h]; rfl
  rcases List.mem_getLast?_eq_getLast hx with ⟨hne, h2⟩
  rw [h2]
  exact List.getLast_mem hne

theorem pySplit_ne_nil_of_mem {c : Char} {l : List Char} (hmem : c ∈ l)
    (hnws : ¬ pyIsSpace c) : pySplit l ≠ [] := by
  induction l with
  | nil => simp at hmem
  | cons x t ih =>
      by_cases hx : pyIsSpace x
      · rw [pySplit_cons_ws hx]
        rcases List.mem_cons.mp hmem with rfl | hmem2
        · exact absurd hx hnws
        · exact ih hmem2
      · rw [pySplit_cons_word hx]
        simp

theorem lastIdxBefore_lt {t : List Char} {n : Nat} {p : Char → Bool} {i : Nat}
    (h : lastIdxBefore t n p = some i) : i < n ∧ i < t.length := by
  have hmem := getLast?_to_mem h
  have := (List.mem_filter.mp hmem).1
  have hrange := List.mem_range.mp this
  exact ⟨lt_of_lt_of_le hrange inf_le_left, lt_of_lt_of_le hrange inf_le_right⟩

theorem truncate_eq_core (text : List Char) (mc mw : Option Nat) :
    truncate_text_for_slide text mc mw =
      if text = [] then some []
      else ensure_complete_sentences (truncCore text mc mw) := by
  by_cases h0 : text = []
  · simp [truncate_text_for_slide, h0]
  · rw [if_neg h0]
    unfold truncate_text_for_slide truncCore
    rw [if_neg h0, if_neg h0]
    rw [apply_ite ensure_complete_sentences]

theorem wordCount_pyStrip (l : List Char) :
    wordCount (pyStrip l) = wordCount l := by
  rw [wordCount, wordCount, pySplit_pyStrip]

theorem spaceCut_length_le (t1 : List Char) (maxC : Nat) :
    (spaceCut t1 maxC).length ≤ maxC := by
  unfold spaceCut
  cases hj : lastIdxBefore t1 maxC (fun c => c = ' ') with
  | some j =>
      have hlt := (lastIdxBefore_lt hj).1
      show (if 0 < j then pyStrip (t1.take j)
        else pyStrip (t1.take maxC)).length ≤ maxC
      split_ifs with hj0
      · calc (pyStrip (t1.take j)).length ≤ (t1.take j).length :=
              pyStrip_length_le _
          _ ≤ j := List.length_take_le _ _
          _ ≤ maxC := Nat.le_of_lt hlt
      · calc (pyStrip (t1.take maxC)).length ≤ (t1.take maxC).length :=
              pyStrip_length_le _
          _ ≤ maxC := List.length_take_le _ _
  | none =>
      calc (pyStrip (t1.take maxC)).length ≤ (t1.take maxC).length :=
            pyStrip_length_le _
        _ ≤ maxC := List.length_take_le _ _

theorem spaceCut_wordCount_le (t1 : List Char) (maxC : Nat) :
    wordCount (spaceCut t1 maxC) ≤ wordCount t1 := by
  unfold spaceCut
  cases hj : lastIdxBefore t1 maxC (fun c => c = ' ') with
  | some j =>
      show wordCount (if 0 < j then pyStrip (t1.take j)
        else pyStrip (t1.take maxC)) ≤ wordCount t1
      split_ifs with hj0
      · rw [wordCount_pyStrip]
        exact wordCount_take_le _ _
      · rw [wordCount_pyStrip]
        exact wordCount_take_le _ _
  | none =>
      rw [wordCount_pyStrip]
      exact wordCount_take_le _ _

theorem charCut_length_le (t1 : List Char) (maxC : Nat) :
    (charCut t1 maxC).length ≤ maxC := by
  unfold charCut
  cases hi : lastIdxBefore t1 maxC (fun c => c = '.' || c = '!' || c = '?') with
  | some i =>
      have hlt := (lastIdxBefore_lt hi).1
      show (if 0 < i then pyStrip (t1.take (i + 1))
        else spaceCut t1 maxC).length ≤ maxC
      split_ifs with hi0
      · calc (pyStrip (t1.take (i + 1))).length ≤ (t1.take (i + 1)).length :=
              pyStrip_length_le _
          _ ≤ i + 1 := List.length_take_le _ _
          _ ≤ maxC := hlt
      · exact spaceCut_length_le t1 maxC
  | none => exact spaceCut_length_le t1 maxC

theorem charCut_wordCount_le (t1 : List Char) (maxC : Nat) :
    wordCount (charCut t1 maxC) ≤ wordCount t1 := by
  unfold charCut
  cases hi : lastIdxBefore t1 maxC (fun c => c = '.' || c = '!' || c = '?') with
  | some i =>
      show wordCount (if 0 < i then pyStrip (t1.take (i + 1))
        else spaceCut t1 maxC) ≤ wordCount t1
      split_ifs with hi0
      · rw [wordCount_pyStrip]
        exact wordCount_take_le _ _
      · exact spaceCut_wordCount_le t1 maxC
  | none => exact spaceCut_wordCount_le t1 maxC

theorem truncCore_bounds (text : List Char) (mc mw : Option Nat) :
    (truncCore text mc mw).length ≤ effLimit 100 mc ∧
      wordCount (truncCore text mc mw) ≤ effLimit 20 mw := by
  by_cases h0 : text = []
  · subst h0
    refine ⟨?_, ?_⟩ <;> simp [truncCore, wordCount, pySplit_nil]
  · have hte : truncCore text mc mw =
        if (pySplit (pyStrip text)).length ≤ effLimit 20 mw ∧
            (pyStrip text).length ≤ effLimit 100 mc then pyStrip text
        else
          if effLimit 100 mc <
              (if effLimit 20 mw < (pySplit (pyStrip text)).length then
                joinWords ((pySplit (pyStrip text)).take (effLimit 20 mw))
              else pyStrip text).length then
            charCut
              (if effLimit 20 mw < (pySplit (pyStrip text)).length then
                joinWords ((pySplit (pyStrip text)).take (effLimit 20 mw))
              else pyStrip text) (effLimit 100 mc)
          else
            if effLimit 20 mw < (pySplit (pyStrip text)).length then
              joinWords ((pySplit (pyStrip text)).take (effLimit 20 mw))
            else pyStrip text := by
      unfold truncCore
      rw [if_neg h0]
    rw [hte]
    set maxC := effLimit 100 mc
    set maxW := effLimit 20 mw
    set t := pyStrip text
    set t1 := if maxW < (pySplit t).length then
        joinWords ((pySplit t).take maxW)
      else t with ht1
    have hwc1 : wordCount t1 ≤ maxW := by
      rw [ht1]
      split_ifs with hg
      · have htok : ∀ w ∈ (pySplit t).take maxW,
            w ≠ [] ∧ ∀ c ∈ w, ¬ pyIsSpace c :=
          fun w hw => pySplit_mem_tokens (List.take_subset _ _ hw)
        rw [wordCount, pySplit_joinWords htok, List.length_take]
        exact Nat.min_le_left _ _
      · rw [wordCount]
        omega
    split_ifs with h1 h2
    · exact ⟨h1.2, by rw [wordCount]; exact h1.1⟩
    · exact ⟨charCut_length_le t1 maxC,
        Nat.le_trans (charCut_wordCount_le t1 maxC) hwc1⟩
    · exact ⟨Nat.le_of_not_lt h2, hwc1⟩

/-- C2 counterexample.  On input `"manua"` with `max_chars = 6` and
`max_words = 1` the pass-through branch is taken (no truncation, in
particular not the hard-cut fallback), yet the output
`" manual processes."` has 18 characters and 2 words: the sentence-completion
step breaks both bounds. -/
theorem C2_counterexample_completion_exceeds_limits :
    truncCore "manua".toList (some 6) (some 1) = "manua".toList ∧
    truncate_text_for_slide "manua".toList (some 6) (some 1) =
      some " manual processes.".toList ∧
    effLimit 100 (some 6) = 6 ∧ effLimit 20 (some 1) = 1 ∧
    (" manual processes.".toList).length = 18 ∧
    wordCount " manual processes.".toList = 2 := by decide

/-- C2 (amended).  The truncation phase itself (`truncCore`, everything
before the final `ensure_complete_sentences` call) always satisfies both
limits — in every branch, including the hard cut, whose `strip()` makes the
result at most `max_chars` long; the final output equals sentence completion
applied to that bounded text, and only that completion step (period append
or completion-phrase replacement) can exceed either limit. -/
theorem C2_truncator_bounds_amended (text : List Char) (mc mw : Option Nat) :
    truncate_text_for_slide text mc mw =
      (if text = [] then some []
       else ensure_complete_sentences (truncCore text mc mw)) ∧
    (truncCore text mc mw).length ≤ effLimit 100 mc ∧
    wordCount (truncCore text mc mw) ≤ effLimit 20 mw :=
  ⟨truncate_eq_core text mc mw, (truncCore_bounds text mc mw).1,
    (truncCore_bounds text mc mw).2⟩

/-- C6 counterexample.  Truncating `"abc e"` with `max_chars = 5` appends a
period, making the output 6 characters long; re-truncating that output with
the same limits cuts it back to `"abc."`, so the Truncator is not
idempotent. -/
theorem C6_counterexample_not_idempotent :
    truncate_text_for_slide "abc e".toList (some 5) none =
      some "abc e.".toList ∧
    truncate_text_for_slide "abc e.".toList (some 5) none =
      some "abc.".toList ∧
    "abc.".toList ≠ "abc e.".toList := by decide

/-- C6 (amended).  The Truncator is idempotent on outputs that still fit:
whenever the first pass returns a string that is whitespace-stripped and
within both effective limits, truncating it again with the same limits
returns it unchanged. -/
theorem C6_truncate_idempotent_amended (text : List Char) (mc mw : Option Nat)
    (o : List Char) (ho : truncate_text_for_slide text mc mw = some o)
    (hstrip : pyStrip o = o) (hlen : o.length ≤ effLimit 100 mc)
    (hwc : wordCount o ≤ effLimit 20 mw) :
    truncate_text_for_slide o mc mw = some o := by
  by_cases h1 : o = []
  · subst h1
    rw [truncate_text_for_slide, if_pos rfl]
  · rw [truncate_eq_core, if_neg h1]
    have hco : truncCore o mc mw = o := by
      have hte : truncCore o mc mw =
          if (pySplit (pyStrip o)).length ≤ effLimit 20 mw ∧
              (pyStrip o).length ≤ effLimit 100 mc then pyStrip o
          else
            if effLimit 100 mc <
                (if effLimit 20 mw < (pySplit (pyStrip o)).length then
                  joinWords ((pySplit (pyStrip o)).take (effLimit 20 mw))
                else pyStrip o).length then
              charCut
                (if effLimit 20 mw < (pySplit (pyStrip o)).length then
                  joinWords ((pySplit (pyStrip o)).take (effLimit 20 mw))
                else pyStrip o) (effLimit 100 mc)
            else
              if effLimit 20 mw < (pySplit (pyStrip o)).length then
                joinWords ((pySplit (pyStrip o)).take (effLimit 20 mw))
              else pyStrip o := by
        unfold truncCore
        rw [if_neg h1]
      rw [hte, hstrip, if_pos ⟨hwc, hlen⟩]
    rw [hco]
    rw [truncate_eq_core] at ho
    by_cases h2 : text = []
    · rw [if_pos h2] at ho
      have : o = [] := by simpa using ho.symm
      exact absurd this h1
    · rw [if_neg h2] at ho
      exact ensure_idem ho

/-- C6 witness: the amended idempotence theorem applied at a concrete
output. -/
theorem C6_truncate_idempotent_amended_witness :
    truncate_text_for_slide "Hello world.".toList none none =
      some "Hello world.".toList :=
  C6_truncate_idempotent_amended "Hello world".toList none none
    "Hello world.".toList (by decide) (by decide) (by decide) (by decide)

/-- C7 counterexample.  On the non-empty input `"abc,"` the repair returns
the string unchanged: the final character `,` is not alphanumeric, so no
period is appended and the output ends in none of `'.'`, `'!'`, `'?'`. -/
theorem C7_counterexample_comma :
    ensure_complete_sentences "abc,".toList = some "abc,".toList ∧
    ¬("abc,".toList.getLast? = some '.' ∨
      "abc,".toList.getLast? = some '!' ∨
      "abc,".toList.getLast? = some '?') := by decide

/-- C7 (amended).  For every non-empty input whose `rstrip('. ')` residue is
non-empty and ends in an alphanumeric character, `'!'`, or `'?'`, the
Sentence Completion repair returns a string ending in `'.'`, `'!'`, or
`'?'`. -/
theorem C7_sentence_completion_amended (s : List Char) (hne : s ≠ [])
    (h : ∃ c, (pyRstrip s isDotSpace).getLast? = some c ∧
        (c.isAlphanum = true ∨ c = '!' ∨ c = '?')) :
    ∃ r, ensure_complete_sentences s = some r ∧
      (r.getLast? = some '.' ∨ r.getLast? = some '!' ∨
        r.getLast? = some '?') := by
  obtain ⟨c, hL, hc⟩ := h
  rw [ensure_eval_some hne hL]
  have hfire_last : ∀ {t2 lastw comp : List Char},
      (pySplit t2).getLast? = some lastw →
      findCompletion (lastw.map Char.toLower) = some comp →
      (joinWords (pySplit t2).dropLast ++ ' ' :: comp).getLast? = some '.' := by
    intro t2 lastw comp hws hfc
    obtain ⟨hc1, _, _, hc4, _, _⟩ :=
      endings_comp_props comp (findCompletion_mem hfc)
    have hdot : comp.getLast? = some '.' := by
      rw [← hc4]
      exact List.getLast?_concat _
    rw [show joinWords (pySplit t2).dropLast ++ ' ' :: comp =
        (joinWords (pySplit t2).dropLast ++ [' ']) ++ comp by simp,
      getLast?_append_right hc1, hdot]
  by_cases halnum : c.isAlphanum
  · rw [if_pos halnum]
    have hwsne : pySplit (pyRstrip s isDotSpace ++ ['.']) ≠ [] :=
      pySplit_ne_nil_of_mem (c := '.') (by simp) (by decide)
    obtain ⟨lastw, hws⟩ :
        ∃ lw, (pySplit (pyRstrip s isDotSpace ++ ['.'])).getLast? = some lw := by
      cases hx : (pySplit (pyRstrip s isDotSpace ++ ['.'])).getLast? with
      | none => exact absurd (getLast?_eq_nil hx) hwsne
      | some z => exact ⟨z, rfl⟩
    cases hfc : findCompletion (lastw.map Char.toLower) with
    | some comp =>
        exact ⟨_, applyCompletion_fire hws hfc,
          Or.inl (hfire_last hws hfc)⟩
    | none =>
        exact ⟨_, applyCompletion_none_fire hws hfc,
          Or.inl (List.getLast?_concat _)⟩
  · rw [if_neg halnum]
    have hc2 : c = '!' ∨ c = '?' := by
      rcases hc with h | h | h
      · exact absurd h halnum
      · exact Or.inl h
      · exact Or.inr h
    have hnws : ¬ pyIsSpace c := by rcases hc2 with rfl | rfl <;> decide
    have hcmem : c ∈ pyRstrip s isDotSpace := getLast?_to_mem hL
    have hwsne : pySplit (pyRstrip s isDotSpace) ≠ [] :=
      pySplit_ne_nil_of_mem hcmem hnws
    obtain ⟨lastw, hws⟩ :
        ∃ lw, (pySplit (pyRstrip s isDotSpace)).getLast? = some lw := by
      cases hx : (pySplit (pyRstrip s isDotSpace)).getLast? with
      | none => exact absurd (getLast?_eq_nil hx) hwsne
      | some z => exact ⟨z, rfl⟩
    cases hfc : findCompletion (lastw.map Char.toLower) with
    | some comp =>
        exact ⟨_, applyCompletion_fire hws hfc,
          Or.inl (hfire_last hws hfc)⟩
    | none =>
        refine ⟨_, applyCompletion_none_fire hws hfc, ?_⟩
        rcases hc2 with rfl | rfl
        · exact Or.inr (Or.inl hL)
        · exact Or.inr (Or.inr hL)

/-- C7 witness: the amended completion theorem applied at a concrete
input. -/
theorem C7_sentence_completion_amended_witness :
    ∃ r, ensure_complete_sentences "Hello world".toList = some r ∧
      (r.getLast? = some '.' ∨ r.getLast? = some '!' ∨
        r.getLast? = some '?') :=
  C7_sentence_completion_amended "Hello world".toList (by decide)
    ⟨'d', by decide, Or.inl (by decide)⟩

/-- C4 witness: in a concrete three-call build whose middle call obtains no
image, the two non-adjacent successful calls return distinct hashes; and an
all-collision feed yields no image. -/
theorem C4_image_layer_unique_hashes_witness :
    (5 : Nat) ≠ 7 ∧
    (fetch_unique_image (fun _ => 3) "x" true ⟨[3], none, [some 9]⟩).1 =
      none :=
  ⟨C4_image_layer_unique_hashes.1 (fun n => n) ["a", "c", "b"]
      ⟨[], some [("a", 5)], [none, some 7]⟩ 0 2 5 7 (by decide) rfl rfl,
    C4_image_layer_unique_hashes.2 (fun _ => 3) "x" ⟨[3], none, [some 9]⟩
      (by decide)⟩

end DeckGenie
